import Mathlib

/-!
# Verification of the QR symbol encoder (byte mode, EC level M)

Shallow embedding of the QR-code generator found in the PixQrCode component
(`generateQrMatrix` and its helpers).  Each definition mirrors one source
function; grids are represented as `Nat` bitsets indexed by `r * size + c`
(the source uses `boolean[][]` / `(boolean | null)[][]` arrays).
-/

namespace QR

/-! ## Galois field GF(256), primitive polynomial 0x11D (`initGaloisField`, `gfMul`) -/

/-- One step of the table-building loop: `x = x << 1; if (x >= 256) x ^= 0x11D`. -/
def gfStep (x : Nat) : Nat :=
  let x' := x * 2
  if 256 ≤ x' then x' ^^^ 0x11D else x'

/-- The running value `x` of `initGaloisField` before iteration `i`
(`x` starts at 1, so `GF_EXP[i] = gfExpAux i` for `i < 255`). -/
def gfExpAux : Nat → Nat
  | 0 => 1
  | i + 1 => gfStep (gfExpAux i)

/-- `GF_EXP` table: entries `0..254` from the build loop, entries `255..511`
copied from the first 255 entries (`GF_EXP[i] = GF_EXP[i-255]`). -/
def GF_EXP (i : Nat) : Nat :=
  if i < 255 then gfExpAux i else gfExpAux (i - 255)

/-- `GF_LOG` table: the loop writes `GF_LOG[x] = i` whenever `GF_EXP[i] = x`;
the 255 written values `gfExpAux i` are pairwise distinct, so the final cell
holds the unique such `i` (0, the typed-array default, for bytes never hit). -/
def GF_LOG (x : Nat) : Nat :=
  (((List.range 255).find? fun i => gfExpAux i == x).getD 0)

/-- `gfMul`: 0 if either operand is 0, else `GF_EXP[GF_LOG[a] + GF_LOG[b]]`. -/
def gfMul (a b : Nat) : Nat :=
  if a = 0 ∨ b = 0 then 0 else GF_EXP (GF_LOG a + GF_LOG b)

/-! ## Version selection (`selectVersion`) -/

/-- The 41-entry byte-mode capacity table for EC level M (index 0 unused). -/
def capacitiesM : List Nat :=
  [0, 14, 26, 42, 62, 84, 106, 122, 152, 180, 213,
   251, 287, 331, 362, 412, 450, 504, 560, 624, 666,
   711, 779, 857, 911, 997, 1059, 1125, 1190, 1264, 1370,
   1452, 1538, 1628, 1722, 1809, 1911, 1989, 2099, 2213, 2331]

/-- `capacities[v]` lookup. -/
def capacityM (v : Nat) : Nat := capacitiesM.getD v 0

/-- The `for (v = 1; v <= 40; v++)` search loop of `selectVersion`; the first
argument is the number of candidate versions still to try (the loop bound
`v <= 40` encoded as fuel, so that the definition reduces structurally). -/
def selectVersionLoop : Nat → Nat → Nat → Option Nat
  | 0, _, _ => none
  | n + 1, v, dataLen =>
    if dataLen ≤ capacityM v then some v
    else selectVersionLoop n (v + 1) dataLen

/-- `selectVersion`: first version `1..40` whose capacity fits, else the
capacity error (modelled as `none`). -/
def selectVersion (dataLen : Nat) : Option Nat := selectVersionLoop 40 1 dataLen

end QR

namespace QR

/-! ## Grid state

The source keeps two `size × size` arrays: `grid : (boolean | null)[][]` and
`reserved : boolean[][]`.  We store each as a `Nat` bitset addressed by
`r * size + c`: `assigned`/`dark` encode the tri-state cell
(`null` iff unassigned) and `reserved` the reservation flags. -/

def bitAddr (size r c : Nat) : Nat := r * size + c

def setBit (n i : Nat) : Nat := n ||| (1 <<< i)

def clearBit (n i : Nat) : Nat := if n.testBit i then n ^^^ (1 <<< i) else n

structure GridState where
  size : Nat
  assigned : Nat
  dark : Nat
  reserved : Nat
deriving DecidableEq

def emptyGrid (size : Nat) : GridState := ⟨size, 0, 0, 0⟩

/-- The tri-state cell `grid[r][c]` (`none` = JS `null`). -/
def GridState.cell (g : GridState) (r c : Nat) : Option Bool :=
  if g.assigned.testBit (bitAddr g.size r c) then
    some (g.dark.testBit (bitAddr g.size r c))
  else none

/-- `grid[r][c] = b`. -/
def GridState.write (g : GridState) (r c : Nat) (b : Bool) : GridState :=
  let i := bitAddr g.size r c
  { g with assigned := setBit g.assigned i,
           dark := if b then setBit g.dark i else clearBit g.dark i }

/-- `reserved[r][c] = true`. -/
def GridState.reserve (g : GridState) (r c : Nat) : GridState :=
  { g with reserved := setBit g.reserved (bitAddr g.size r c) }

/-- `reserved[r][c]`. -/
def GridState.isReserved (g : GridState) (r c : Nat) : Bool :=
  g.reserved.testBit (bitAddr g.size r c)

/-- JS `grid[r][c] = !grid[r][c]` on the tri-state grid (`!null === true`). -/
def GridState.flip (g : GridState) (r c : Nat) : GridState :=
  match g.cell r c with
  | none => g.write r c true
  | some b => g.write r c (!b)

/-! ## Fixed patterns (`placeFinder`, `placeAlignment`, timing, reservations) -/

/-- Row-major enumeration of a nested `for r in 0..a, for c in 0..b` loop. -/
def gridPairs (a b : Nat) : List (Nat × Nat) :=
  (List.range a).flatMap fun r => (List.range b).map fun c => (r, c)

/-- The `continue` condition of the placement loops: `(gr, gc)` out of the
`size × size` board. -/
def oob (size : Nat) (gr gc : Int) : Prop :=
  gr < 0 ∨ gc < 0 ∨ (size : Int) ≤ gr ∨ (size : Int) ≤ gc

instance (size : Nat) (gr gc : Int) : Decidable (oob size gr gc) := by
  unfold oob
  infer_instance

/-- The dark/light value `placeFinder` writes at offsets `(r, c)`. -/
def finderVal (r c : Int) : Bool :=
  decide ((0 ≤ r ∧ r ≤ 6 ∧ 0 ≤ c ∧ c ≤ 6) ∧
    ((r = 0 ∨ r = 6 ∨ c = 0 ∨ c = 6) ∨ (2 ≤ r ∧ r ≤ 4 ∧ 2 ≤ c ∧ c ≤ 4)))

/-- The body of `placeFinder`'s loop, at loop indices `rc9` (offsets are
`rc9 - 1`, ranging over `-1..7`). -/
def placeFinderStep (row col : Int) (g : GridState) (rc9 : Nat × Nat) : GridState :=
  let gr := row + ((rc9.1 : Int) - 1)
  let gc := col + ((rc9.2 : Int) - 1)
  if oob g.size gr gc then g
  else
    (g.write gr.toNat gc.toNat
      (finderVal ((rc9.1 : Int) - 1) ((rc9.2 : Int) - 1))).reserve gr.toNat gc.toNat

/-- `placeFinder`: 9×9 loop over offsets `-1..7` around `(row, col)`. -/
def placeFinder (g : GridState) (row col : Int) : GridState :=
  (gridPairs 9 9).foldl (placeFinderStep row col) g

/-- The overlap-check loop of `placeAlignment` on a bare reservation mask
(out-of-bounds cells are skipped by the source's `continue`, i.e. they do
not count as overlap). -/
def alignOverlapMask (size m : Nat) (row col : Int) : Bool :=
  (List.range 5).any fun r5 =>
    (List.range 5).any fun c5 =>
      let gr := row + ((r5 : Int) - 2)
      let gc := col + ((c5 : Int) - 2)
      if oob size gr gc then false
      else m.testBit (bitAddr size gr.toNat gc.toNat)

/-- The overlap-check loop of `placeAlignment` (it reads only the
reservation grid). -/
def alignOverlap (g : GridState) (row col : Int) : Bool :=
  alignOverlapMask g.size g.reserved row col

/-- The body of `placeAlignment`'s write loop at loop indices `rc5`
(offsets are `rc5 - 2`, ranging over `-2..2`). -/
def placeAlignStep (row col : Int) (g : GridState) (rc5 : Nat × Nat) : GridState :=
  let r : Int := (rc5.1 : Int) - 2
  let c : Int := (rc5.2 : Int) - 2
  let gr := row + r
  let gc := col + c
  let isEdge := r.natAbs = 2 ∨ c.natAbs = 2
  let isCenter := r = 0 ∧ c = 0
  (g.write gr.toNat gc.toNat (decide (isEdge ∨ isCenter))).reserve gr.toNat gc.toNat

/-- `placeAlignment`: bail out on any overlap, else write the 5×5 pattern. -/
def placeAlignment (g : GridState) (row col : Int) : GridState :=
  if alignOverlap g row col then g
  else (gridPairs 5 5).foldl (placeAlignStep row col) g

/-- `getAlignmentPositions` lookup table (index = version, `positions[version] || []`). -/
def alignmentTable : List (List Nat) :=
  [[], [],
   [6, 18], [6, 22], [6, 26], [6, 30], [6, 34],
   [6, 22, 38], [6, 24, 42], [6, 26, 46], [6, 28, 50], [6, 30, 54],
   [6, 32, 58], [6, 34, 62], [6, 26, 46, 66], [6, 26, 48, 70],
   [6, 26, 50, 74], [6, 30, 54, 78], [6, 30, 56, 82], [6, 30, 58, 86],
   [6, 34, 62, 90], [6, 28, 50, 72, 94], [6, 26, 50, 74, 98],
   [6, 30, 54, 78, 102], [6, 28, 54, 80, 106], [6, 32, 58, 84, 110],
   [6, 30, 58, 86, 114], [6, 34, 62, 90, 118], [6, 26, 50, 74, 98, 122],
   [6, 30, 54, 78, 102, 126], [6, 26, 52, 78, 104, 130],
   [6, 30, 56, 82, 108, 134], [6, 34, 60, 86, 112, 138],
   [6, 30, 58, 86, 114, 142], [6, 34, 62, 90, 118, 146],
   [6, 30, 54, 78, 102, 126, 150], [6, 24, 50, 76, 102, 128, 154],
   [6, 28, 54, 80, 106, 132, 158], [6, 32, 58, 84, 110, 136, 162],
   [6, 26, 54, 82, 110, 138, 166], [6, 30, 58, 86, 114, 142, 170]]

def getAlignmentPositions (version : Nat) : List Nat :=
  if version ≤ 1 then [] else alignmentTable.getD version []

/-- One iteration of the timing loop: row-6 cell, then column-6 cell,
each skipped when already reserved. -/
def placeTimingStep (g : GridState) (i : Nat) : GridState :=
  let g := if g.isReserved 6 i then g else (g.write 6 i (i % 2 == 0)).reserve 6 i
  if g.isReserved i 6 then g else (g.write i 6 (i % 2 == 0)).reserve i 6

/-- Timing patterns: `for (i = 8; i < size - 8; i++)` along row 6 / column 6. -/
def placeTiming (g : GridState) : GridState :=
  (List.range' 8 (g.size - 16)).foldl placeTimingStep g

/-- Fixed dark module at `(size-8, 8)`. -/
def placeDarkModule (g : GridState) : GridState :=
  (g.write (g.size - 8) 8 true).reserve (g.size - 8) 8

/-- Format-information reservation loop (reserves only; writes no cell). -/
def reserveFormat (g : GridState) : GridState :=
  ((List.range 8).foldl (fun g i =>
    (((g.reserve 8 i).reserve 8 (g.size - 1 - i)).reserve i 8).reserve
      (g.size - 1 - i) 8) g).reserve 8 8

/-- Version-information reservation loop (versions ≥ 7 only). -/
def reserveVersion (g : GridState) (version : Nat) : GridState :=
  if version < 7 then g
  else
    (List.range 6).foldl (fun g i =>
      (List.range 3).foldl (fun g j =>
        (g.reserve i (g.size - 11 + j)).reserve (g.size - 11 + j) i) g) g

/-- The three finder placements of `generateQrMatrix`, in source order. -/
def baseFinders (version : Nat) : GridState :=
  let size := version * 4 + 17
  let g := emptyGrid size
  let g := placeFinder g 0 0
  let g := placeFinder g ((size : Int) - 7) 0
  placeFinder g 0 ((size : Int) - 7)

/-- Center pairs tried by the alignment loop, in source (row-major,
nested `for r / for c`) order. -/
def centerPairs (version : Nat) : List (Nat × Nat) :=
  (getAlignmentPositions version).flatMap fun r =>
    (getAlignmentPositions version).map fun c => (r, c)

/-- One center of the alignment loop: skip when the center cell is already
reserved (`if (reserved[r]?.[c]) continue`), else try to place the pattern. -/
def alignCenterStep (g : GridState) (rc : Nat × Nat) : GridState :=
  if g.isReserved rc.1 rc.2 then g
  else placeAlignment g (rc.1 : Int) (rc.2 : Int)

/-- The alignment-pattern loop of `generateQrMatrix`: every row/column
combination from the position table, in nested-loop order. -/
def baseAlign (version : Nat) : GridState :=
  (centerPairs version).foldl alignCenterStep (baseFinders version)

/-- State after the timing patterns. -/
def baseTiming (version : Nat) : GridState := placeTiming (baseAlign version)

/-- State after the fixed dark module. -/
def baseDark (version : Nat) : GridState := placeDarkModule (baseTiming version)

/-- The fixed-pattern phase of `generateQrMatrix`: everything before
`encodeData` / `placeData` (finders, alignment, timing, dark module,
format and version reservations), in source order. -/
def buildBase (version : Nat) : GridState :=
  reserveVersion (reserveFormat (baseDark version)) version

/-! ## Data placement (`placeData`) -/

/-- The column sequence of `placeData`'s `while (col >= 0)` loop: the `col`
variable after the `if (col === 6) col--;` adjustment, at each iteration
(the first argument is fuel; `size` iterations always suffice). -/
def colSeqFrom : Nat → Nat → List Nat
  | 0, _ => []
  | fuel + 1, col =>
    let c := if col = 6 then col - 1 else col
    if c < 2 then [c] else c :: colSeqFrom fuel (c - 2)

def colSeq (size : Nat) : List Nat := colSeqFrom size (size - 1)

/-- `pairIndex = floor((size - 1 - col + (col < 6 ? 1 : 0)) / 2)`. -/
def pairIndexSrc (size col : Nat) : Nat :=
  (size - 1 - col + (if col < 6 then 1 else 0)) / 2

/-- `isUpward = pairIndex % 2 === 0`. -/
def isUpwardSrc (size col : Nat) : Bool := pairIndexSrc size col % 2 == 0

/-- The cells visited for one `col` value of the outer loop, in visit order
(`row` loop outside, `c ∈ {0,1}` inside; `actualCol < 0` is skipped). -/
def visitColCells (size col : Nat) : List (Nat × Nat) :=
  (List.range size).flatMap fun row =>
    ([0, 1].filter fun c => decide (c ≤ col)).map fun c =>
      (if isUpwardSrc size col then size - 1 - row else row, col - c)

/-- All cells in the order `placeData` visits them. -/
def visitSeq (size : Nat) : List (Nat × Nat) :=
  (colSeq size).flatMap (visitColCells size)

/-- One visited cell of `placeData`: skip reserved cells, else write the next
codeword bit MSB-first while bits remain, else write light (`false`).
The `Nat` component is the running `bitIdx`. -/
def placeDataStep (totalBits : Nat) (codewords : List Nat)
    (st : GridState × Nat) (p : Nat × Nat) : GridState × Nat :=
  if st.1.isReserved p.1 p.2 then st
  else if st.2 < totalBits then
    let byte := codewords.getD (st.2 / 8) 0
    let bit := byte.testBit (7 - st.2 % 8)
    (st.1.write p.1 p.2 bit, st.2 + 1)
  else
    (st.1.write p.1 p.2 false, st.2)

/-- `placeData` (also returning the final `bitIdx`, the number of codeword
bits actually placed). -/
def placeData (g : GridState) (codewords : List Nat) : GridState × Nat :=
  (visitSeq g.size).foldl (placeDataStep (codewords.length * 8) codewords) (g, 0)

/-! ## Masks and penalty (`shouldMask`, `applyMask`, `calcPenalty`, `selectBestMask`) -/

def shouldMask (mask row col : Nat) : Bool :=
  match mask with
  | 0 => (row + col) % 2 == 0
  | 1 => row % 2 == 0
  | 2 => col % 3 == 0
  | 3 => (row + col) % 3 == 0
  | 4 => (row / 2 + col / 3) % 2 == 0
  | 5 => (row * col) % 2 + (row * col) % 3 == 0
  | 6 => ((row * col) % 2 + (row * col) % 3) % 2 == 0
  | 7 => ((row + col) % 2 + (row * col) % 3) % 2 == 0
  | _ => false

/-- `applyMask`: XOR-flip every non-reserved cell matching the formula. -/
def applyMask (g : GridState) (mask : Nat) : GridState :=
  (List.range g.size).foldl (fun g r =>
    (List.range g.size).foldl (fun g c =>
      if g.isReserved r c then g
      else if shouldMask mask r c then g.flip r c else g) g) g

/-- The scratch copy built inside `selectBestMask` for candidate `m`. -/
def maskScratch (g : GridState) (m : Nat) : GridState :=
  (List.range g.size).foldl (fun t r =>
    (List.range g.size).foldl (fun t c =>
      if !t.isReserved r c && shouldMask m r c then t.flip r c else t) t) g

/-- The run-length scoring loop of `calcPenalty` along one line, carrying the
previous cell and the current run length. -/
def linePenGo {α : Type} [DecidableEq α] : α → Nat → List α → Nat
  | _, _, [] => 0
  | prev, count, b :: l =>
    if b = prev then
      (if count + 1 = 5 then 3 else if 5 < count + 1 then 1 else 0) +
        linePenGo b (count + 1) l
    else linePenGo b 1 l

/-- Rule-1 penalty of one row or column (`count` starts at 1). -/
def linePen {α : Type} [DecidableEq α] : List α → Nat
  | [] => 0
  | a :: l => linePenGo a 1 l

def rowCells (g : GridState) (r : Nat) : List (Option Bool) :=
  (List.range g.size).map fun c => g.cell r c

def colCells (g : GridState) (c : Nat) : List (Option Bool) :=
  (List.range g.size).map fun r => g.cell r c

/-- `if (grid[r][c]) dark++` — truthy means `some true`. -/
def darkCount (g : GridState) : Nat :=
  ((List.range g.size).map fun r =>
    ((List.range g.size).filter fun c => g.cell r c == some true).length).sum

/-- Rule-4 penalty `floor(|dark/total*100 - 50| / 5) * 10`, evaluated in
exact arithmetic: `|dark/total*100 - 50| / 5 = |100*dark - 50*total| / (5*total)`. -/
def rule4Pen (dark total : Nat) : Nat :=
  10 * (((100 * dark : Int) - 50 * total).natAbs / (5 * total))

/-- `calcPenalty`: rule 1 over rows, rule 1 over columns, then rule 4. -/
def calcPenalty (g : GridState) : Nat :=
  ((List.range g.size).map fun r => linePen (rowCells g r)).sum +
    ((List.range g.size).map fun c => linePen (colCells g c)).sum +
    rule4Pen (darkCount g) (g.size * g.size)

/-- `selectBestMask`: try masks 0..7 in order; `bestPenalty` starts at
`Infinity` (modelled as `none`) and is replaced under strict `<`. -/
def selectBestMask (g : GridState) : Nat :=
  ((List.range 8).foldl (fun (st : Nat × Option Nat) m =>
    let pen := calcPenalty (maskScratch g m)
    match st.2 with
    | none => (m, some pen)
    | some bp => if pen < bp then (m, some pen) else st) (0, none)).1

/-- The fold step of `selectBestMask`, parametrized by the penalty function
(used to characterize the fold below). -/
def selStep (pen : Nat → Nat) (st : Nat × Option Nat) (m : Nat) : Nat × Option Nat :=
  match st.2 with
  | none => (m, some (pen m))
  | some bp => if pen m < bp then (m, some (pen m)) else st

/-! ## Bitstream, blocks and Reed–Solomon (`encodeData`, `reedSolomonEncode`) -/

/-- Version tables for EC level M; the JS `table[version] || d` fallback
kicks in when the entry is 0 or missing. -/
def getTotalCodewords (version : Nat) : Nat :=
  let table :=
    [0, 26, 44, 70, 100, 134, 172, 196, 242, 292, 346,
     404, 466, 532, 581, 655, 733, 815, 901, 991, 1085,
     1156, 1258, 1364, 1474, 1588, 1706, 1828, 1921, 2051, 2185,
     2323, 2465, 2611, 2761, 2876, 3034, 3196, 3362, 3532, 3706]
  let x := table.getD version 0
  if x = 0 then 26 else x

def getEcCodewordsPerBlock (version : Nat) : Nat :=
  let table :=
    [0, 10, 16, 26, 18, 24, 16, 18, 22, 22, 26,
     30, 22, 22, 24, 24, 28, 28, 26, 26, 26,
     26, 28, 28, 28, 28, 28, 28, 28, 28, 28,
     28, 28, 28, 28, 28, 28, 28, 28, 28, 28]
  let x := table.getD version 0
  if x = 0 then 10 else x

def getNumBlocks (version : Nat) : Nat :=
  let table :=
    [0, 1, 1, 1, 2, 2, 4, 4, 4, 5, 5,
     5, 8, 9, 9, 10, 10, 11, 13, 14, 16,
     17, 17, 18, 20, 21, 23, 25, 26, 28, 29,
     31, 33, 35, 37, 38, 40, 43, 45, 47, 49]
  let x := table.getD version 0
  if x = 0 then 1 else x

/-- `pushBits(arr, value, numBits)`: append `value`'s low `numBits` bits
MSB-first. -/
def pushBits (arr : List Nat) (value numBits : Nat) : List Nat :=
  arr ++ ((List.range numBits).map fun k => (value >>> (numBits - 1 - k)) &&& 1)

/-- XOR `v` into entry `i` of `l` (`l[i] ^= v`). -/
def listXorAt (l : List Nat) (i v : Nat) : List Nat :=
  l.set i ((l.getD i 0) ^^^ v)

/-- One round of the generator-polynomial build: multiply by `(x - exp[i])`
via the shifted/scaled XOR-combine loop. -/
def rsGenStep (e : Nat) (gen : List Nat) : List Nat :=
  (List.range gen.length).foldl (fun ng j =>
    let ng := listXorAt ng j (gen.getD j 0)
    listXorAt ng (j + 1) (gfMul (gen.getD j 0) e))
    (List.replicate (gen.length + 1) 0)

def rsGenPoly (ecLen : Nat) : List Nat :=
  (List.range ecLen).foldl (fun gen i => rsGenStep (GF_EXP i) gen) [1]

/-- `reedSolomonEncode`: polynomial long division, remainder = EC codewords. -/
def reedSolomonEncode (data : List Nat) (ecLen : Nat) : List Nat :=
  let gen := rsGenPoly ecLen
  let msg := data ++ List.replicate ecLen 0
  let msg := (List.range data.length).foldl (fun msg i =>
    let coeff := msg.getD i 0
    if coeff ≠ 0 then
      (List.range gen.length).foldl (fun msg j =>
        listXorAt msg (i + j) (gfMul (gen.getD j 0) coeff)) msg
    else msg) msg
  msg.drop data.length

/-- Bits-to-bytes conversion loop of `encodeData` (MSB-first per byte;
out-of-range bits read as 0 via `|| 0`). -/
def bitsToBytes (bits : List Nat) : List Nat :=
  (List.range ((bits.length + 7) / 8)).map fun i =>
    (List.range 8).foldl (fun byte j => byte * 2 + bits.getD (8 * i + j) 0) 0

/-- The block-splitting loop: block `b` has the short length plus one when
`b >= numBlocks - longBlocks`; blocks are consecutive slices. -/
def mkBlocks (dataBytes : List Nat) (numBlocks shortBlockLen longBlocks : Nat) :
    List (List Nat) :=
  ((List.range numBlocks).foldl (fun (st : List (List Nat) × Nat) b =>
    let blockLen := shortBlockLen + (if numBlocks - longBlocks ≤ b then 1 else 0)
    (st.1 ++ [(dataBytes.drop st.2).take blockLen], st.2 + blockLen)) ([], 0)).1

/-- The data-codeword bit padding of `encodeData`, through `dataBytes`:
mode indicator, count field, payload bits, clipped terminator, zero-pad to a
byte boundary (`while (bits.length % 8 !== 0)`), then alternating pad bytes
`0xEC, 0x11` up to the data capacity (`while (bits.length < dataBits)`,
which adds exactly `(dataBits - bits.length) / 8` whole bytes since both
lengths are byte-aligned). -/
def dataBytesOf (data : List Nat) (version : Nat) : List Nat :=
  let totalCodewords := getTotalCodewords version
  let ecCodewords := getEcCodewordsPerBlock version
  let numBlocks := getNumBlocks version
  let dataCodewords := totalCodewords - ecCodewords * numBlocks
  let bits : List Nat := []
  let bits := pushBits bits 4 4
  let countBits := if version ≤ 9 then 8 else 16
  let bits := pushBits bits data.length countBits
  let bits := data.foldl (fun bits byte => pushBits bits byte 8) bits
  let dataBits := dataCodewords * 8
  let terminatorLen := min 4 (dataBits - bits.length)
  let bits := pushBits bits 0 terminatorLen
  let bits := bits ++ List.replicate ((8 - bits.length % 8) % 8) 0
  let bits := bits ++ (List.range ((dataBits - bits.length) / 8)).flatMap
    (fun k => (List.range 8).map fun j =>
      ((if k % 2 = 0 then 0xEC else 0x11) >>> (7 - j)) &&& 1)
  bitsToBytes bits

/-- Stages of the bit padding of `dataBytesOf`, named individually so their
lengths can be tracked (each equals the corresponding `let` of the source
loop; `dataBytesOf_eq` below checks the composition definitionally). -/
def padHeader (data : List Nat) (cb : Nat) : List Nat :=
  data.foldl (fun bits byte => pushBits bits byte 8)
    (pushBits (pushBits [] 4 4) data.length cb)

def padTerm (data : List Nat) (cb dataBits : Nat) : List Nat :=
  pushBits (padHeader data cb) 0 (min 4 (dataBits - (padHeader data cb).length))

def padAlign (data : List Nat) (cb dataBits : Nat) : List Nat :=
  padTerm data cb dataBits ++
    List.replicate ((8 - (padTerm data cb dataBits).length % 8) % 8) 0

def padBits (data : List Nat) (cb dataBits : Nat) : List Nat :=
  padAlign data cb dataBits ++
    (List.range ((dataBits - (padAlign data cb dataBits).length) / 8)).flatMap
      (fun k => (List.range 8).map fun j =>
        ((if k % 2 = 0 then 0xEC else 0x11) >>> (7 - j)) &&& 1)

/-- The data-codeword blocks of `encodeData`. -/
def blocksDataOf (data : List Nat) (version : Nat) : List (List Nat) :=
  let dataCodewords := getTotalCodewords version -
    getEcCodewordsPerBlock version * getNumBlocks version
  let numBlocks := getNumBlocks version
  mkBlocks (dataBytesOf data version) numBlocks
    (dataCodewords / numBlocks) (dataCodewords % numBlocks)

/-- The EC blocks of `encodeData`. -/
def blocksEcOf (data : List Nat) (version : Nat) : List (List Nat) :=
  (blocksDataOf data version).map fun block =>
    reedSolomonEncode block (getEcCodewordsPerBlock version)

/-- `encodeData`: interleave data codewords position-by-position, then EC
codewords position-by-position. -/
def encodeData (data : List Nat) (version : Nat) : List Nat :=
  let blocksData := blocksDataOf data version
  let blocksEc := blocksEcOf data version
  let maxDataLen := (blocksData.map List.length).foldl max 0
  ((List.range maxDataLen).flatMap fun i =>
    blocksData.filterMap fun block => block.get? i) ++
  ((List.range (getEcCodewordsPerBlock version)).flatMap fun i =>
    blocksEc.filterMap fun block => block.get? i)

/-! ## Format and version information -/

def FORMAT_INFO : List Nat :=
  [0x5412, 0x5125, 0x5E7C, 0x5B4B, 0x45F9, 0x40CE, 0x4F97, 0x4AA0]

def hBitsPos : List (Nat × Nat) :=
  [(0, 8), (1, 8), (2, 8), (3, 8), (4, 8), (5, 8), (7, 8), (8, 8),
   (8, 7), (8, 5), (8, 4), (8, 3), (8, 2), (8, 1), (8, 0)]

def vBitsPos (size : Nat) : List (Nat × Nat) :=
  [(8, size - 1), (8, size - 2), (8, size - 3), (8, size - 4),
   (8, size - 5), (8, size - 6), (8, size - 7), (8, size - 8),
   (size - 7, 8), (size - 6, 8), (size - 5, 8), (size - 4, 8),
   (size - 3, 8), (size - 2, 8), (size - 1, 8)]

/-- `placeFormatInfo` (the `ecLevel` parameter is unused in the source: the
table is EC-level-M only). -/
def placeFormatInfo (g : GridState) (mask : Nat) : GridState :=
  let info := FORMAT_INFO.getD mask 0
  let g := (List.range 15).foldl (fun g i =>
    let p := hBitsPos.getD i (0, 0)
    g.write p.1 p.2 (info.testBit (14 - i))) g
  (List.range 15).foldl (fun g i =>
    let p := (vBitsPos g.size).getD i (0, 0)
    g.write p.1 p.2 (info.testBit (14 - i))) g

/-- `getVersionInfo`: BCH(18,6) remainder with generator 0x1F25. -/
def getVersionInfo (version : Nat) : Nat :=
  let d := version <<< 12
  let rem := [5, 4, 3, 2, 1, 0].foldl (fun rem i =>
    if rem &&& (1 <<< (i + 12)) ≠ 0 then rem ^^^ (0x1F25 <<< i) else rem) d
  d ||| rem

/-- `placeVersionInfo`: write the 18 bits into the two transposed 6×3 blocks. -/
def placeVersionInfo (g : GridState) (version : Nat) : GridState :=
  if version < 7 then g
  else
    let vi := getVersionInfo version
    (List.range 18).foldl (fun g i =>
      let bit := vi.testBit i
      let row := i / 3
      let col := g.size - 11 + i % 3
      (g.write row col bit).write col row bit) g

/-! ## Pure reservation-mask mirror

The reserved grid evolves independently of cell values, so its final contents
can be mirrored by a computation on a bare mask together with a running count
of reserved cells.  These definitions repeat the loop structure of the
placement functions on `(mask, count)` pairs; the characterization theorems
below prove the mask component equal to `(buildBase v).reserved`. -/

/-- The in-bounds address `placeFinder` touches at loop indices `rc9`. -/
def finderAddrOf (size : Nat) (row col : Int) (rc9 : Nat × Nat) : Option Nat :=
  let gr := row + ((rc9.1 : Int) - 1)
  let gc := col + ((rc9.2 : Int) - 1)
  if oob size gr gc then none
  else some (bitAddr size gr.toNat gc.toNat)

/-- The in-bounds addresses `placeFinder` touches, in loop order. -/
def finderAddrs (size : Nat) (row col : Int) : List Nat :=
  (gridPairs 9 9).filterMap (finderAddrOf size row col)

/-- The address `placeAlignment` writes at loop indices `rc5`. -/
def alignBoxAddrOf (size : Nat) (row col : Int) (rc5 : Nat × Nat) : Nat :=
  bitAddr size (row + ((rc5.1 : Int) - 2)).toNat (col + ((rc5.2 : Int) - 2)).toNat

/-- The addresses of `placeAlignment`'s write loop, in loop order. -/
def alignBoxAddrs (size : Nat) (row col : Int) : List Nat :=
  (gridPairs 5 5).map (alignBoxAddrOf size row col)

/-- The 5×5 box of `placeAlignment` as a single mask. -/
def boxMask (size : Nat) (row col : Int) : Nat :=
  (alignBoxAddrs size row col).foldl setBit 0

/-- Mask counterpart of one center of the alignment loop (center-reserved
skip, overlap bail-out — one `&&&` against the box — then the 25 writes as
one `|||`). -/
def alignStepM (size : Nat) (m : Nat) (rc : Nat × Nat) : Nat :=
  if m.testBit (bitAddr size rc.1 rc.2) then m
  else if m &&& boxMask size (rc.1 : Int) (rc.2 : Int) != 0 then m
  else m ||| boxMask size (rc.1 : Int) (rc.2 : Int)

/-- The four addresses one iteration of the format-reservation loop touches. -/
def formatAddrs4 (size i : Nat) : List Nat :=
  [bitAddr size 8 i, bitAddr size 8 (size - 1 - i),
   bitAddr size i 8, bitAddr size (size - 1 - i) 8]

/-- Format-reservation addresses, in loop order. -/
def formatAddrs (size : Nat) : List Nat :=
  ((List.range 8).flatMap (formatAddrs4 size)) ++ [bitAddr size 8 8]

/-- The two addresses one iteration of the version-reservation loop touches. -/
def versionAddrs2 (size i j : Nat) : List Nat :=
  [bitAddr size i (size - 11 + j), bitAddr size (size - 11 + j) i]

/-- Version-reservation addresses (empty below version 7), in loop order. -/
def versionAddrs (size version : Nat) : List Nat :=
  if version < 7 then []
  else (List.range 6).flatMap fun i =>
    (List.range 3).flatMap (versionAddrs2 size i)

/-- The reservation mask of `buildBase version`, computed without grid state
and with all sequential chains kept short (per-phase masks are built from 0
and merged with single `|||` operations). -/
def baseResMask (version : Nat) : Nat :=
  let size := version * 4 + 17
  let m := (finderAddrs size 0 0).foldl setBit 0 |||
    (finderAddrs size ((size : Int) - 7) 0).foldl setBit 0 |||
    (finderAddrs size 0 ((size : Int) - 7)).foldl setBit 0
  let m := (centerPairs version).foldl (alignStepM size) m
  let m := m ||| ((List.range' 8 (size - 16)).map fun i => bitAddr size 6 i).foldl setBit 0
    ||| ((List.range' 8 (size - 16)).map fun i => bitAddr size i 6).foldl setBit 0
  let m := setBit m (bitAddr size (size - 8) 8)
  let m := m ||| (formatAddrs size).foldl setBit 0
  m ||| (versionAddrs size version).foldl setBit 0

/-! ## Bit counting

`pc8` looks one byte up in a packed nibble table (256 popcount values of
4 bits each), so counting a grid mask costs a few GMP operations per byte
rather than one evaluation per bit. -/

/-- Packed table: nibble `b` of this constant is the number of set bits
of the byte `b`. -/
def pc8Table : Nat :=
  95125173855764218123276304889944061997689682402263585766959741291920687686033329201817409157123347502415384089435969498586180241031507595463600295898153685276653211633572815512294064538494957912327413386667662218713394765509704508661031522276467630197481635010039778342554499416459730172574551513689147646224

/-- Number of set bits of a byte, via the packed table. -/
def pc8 (b : Nat) : Nat := (pc8Table >>> (4 * b)) &&& 15

/-- Number of set bits among the low `8*k` bits of `n`. -/
def popcountBytes : Nat → Nat → Nat
  | 0, _ => 0
  | k + 1, n => pc8 (n &&& 255) + popcountBytes k (n >>> 8)

/-- Number of set bits among the low `rows * size` bits of `n`, processed
row by row to keep reduction shallow. -/
def popcountRows : Nat → Nat → Nat → Nat
  | 0, _, _ => 0
  | r + 1, size, n =>
    popcountBytes ((size + 7) / 8) (n &&& ((1 <<< size) - 1)) +
      popcountRows r size (n >>> size)

/-- Specification-side bit count: the number of `i < W` with bit `i` set. -/
def nbits (W n : Nat) : Nat := (List.range W).countP fun i => n.testBit i

/-- The number of non-reserved cells of the symbol, from the mirror mask. -/
def freeCellCount (version : Nat) : Nat :=
  let size := version * 4 + 17
  size * size - popcountRows size size (baseResMask version)

/-! ## Traversal direction sequences -/

/-- The scan directions of the successive column pairs, in traversal order. -/
def dirSeq (size : Nat) : List Bool :=
  (colSeq size).map fun col => isUpwardSrc size col

/-- Modelled from the spec (§4.4 data placement): the vertical scan
direction alternates — upward, then downward — on every successive
two-column pair of the traversal, so the pair at ordinal `k` scans upward
exactly when `k` is even. -/
def dirSeqSpec (size : Nat) : List Bool :=
  (List.range (colSeq size).length).map fun k => k % 2 == 0

/-! ## Whole-symbol pipeline (`generateQrMatrix`) -/

/-- The successful branch of `generateQrMatrix`, after version selection. -/
def buildSymbol (version : Nat) (bytes : List Nat) : GridState :=
  let g := buildBase version
  let codewords := encodeData bytes version
  let g := (placeData g codewords).1
  let bestMask := selectBestMask g
  let g := applyMask g bestMask
  let g := placeFormatInfo g bestMask
  placeVersionInfo g version

/-- `generateQrMatrix`: select a version (the thrown capacity error is
modelled as `none`, raised before any grid state is created), then build. -/
def generateQrMatrix (bytes : List Nat) : Option GridState :=
  match selectVersion bytes.length with
  | none => none
  | some version => some (buildSymbol version bytes)

/-- The final conversion `grid.map(row => row.map(cell => cell === true))`. -/
def finalMatrix (g : GridState) (r c : Nat) : Bool := g.cell r c == some true

/-! ## Derived stream and traversal forms used in the statements -/

/-- Bit `j` of the codeword stream as `placeData` consumes it: bit
`7 - j % 8` of codeword `j / 8` (MSB-first within each codeword). -/
def streamBit (codewords : List Nat) (j : Nat) : Bool :=
  (codewords.getD (j / 8) 0).testBit (7 - j % 8)

/-- Closed form of `colSeq (v * 4 + 17)`, proved below for every version:
column pairs start at the right edge and step left by two down to column 8,
then the timing column 6 is skipped and the pairs continue at 5, 3, 1. -/
def colSeqClosed (v : Nat) : List Nat :=
  ((List.range (2 * v + 5)).map fun k => 4 * v + 16 - 2 * k) ++ [5, 3, 1]

/-- Lengths of the maximal runs of equal adjacent elements (spec-side notion
for penalty rule 1: a maximal run of `n ≥ 5` identical modules scores
`3 + (n - 5)`). -/
def runLengthsGo {α : Type} [DecidableEq α] (a : α) (n : Nat) : List α → List Nat
  | [] => [n]
  | b :: l => if b = a then runLengthsGo a (n + 1) l else n :: runLengthsGo b 1 l

def runLengths {α : Type} [DecidableEq α] : List α → List Nat
  | [] => []
  | a :: l => runLengthsGo a 1 l

/-- The search loop returns the least fitting version at or above its start. -/
theorem selectVersionLoop_spec (n v dataLen w : Nat)
    (h : selectVersionLoop n v dataLen = some w) :
    v ≤ w ∧ w < v + n ∧ dataLen ≤ capacityM w ∧
      ∀ u, v ≤ u → u < w → capacityM u < dataLen := by
  induction n generalizing v with
  | zero => simp [selectVersionLoop] at h
  | succ n ih =>
    rw [selectVersionLoop] at h
    by_cases hcap : dataLen ≤ capacityM v
    · rw [if_pos hcap] at h
      obtain rfl : v = w := by injection h
      exact ⟨Nat.le_refl v, by omega, hcap, fun u hu huw => by omega⟩
    · rw [if_neg hcap] at h
      obtain ⟨h1, h2, h3, h4⟩ := ih (v + 1) h
      refine ⟨by omega, by omega, h3, ?_⟩
      intro u hu huw
      rcases Nat.eq_or_lt_of_le hu with rfl | hlt
      · exact Nat.not_le.mp hcap
      · exact h4 u hlt huw

/-- If the last candidate the loop will try fits, the loop succeeds. -/
theorem selectVersionLoop_isSome (n v dataLen : Nat) (hn : 1 ≤ n)
    (hfit : dataLen ≤ capacityM (v + n - 1)) :
    (selectVersionLoop n v dataLen).isSome := by
  induction n generalizing v with
  | zero => omega
  | succ n ih =>
    rw [selectVersionLoop]
    by_cases hcap : dataLen ≤ capacityM v
    · rw [if_pos hcap]; rfl
    · rw [if_neg hcap]
      have hn' : 1 ≤ n := by
        rcases Nat.eq_zero_or_pos n with rfl | h
        · simp at hfit; exact absurd hfit hcap
        · exact h
      have hfit' : dataLen ≤ capacityM (v + 1 + n - 1) := by
        have heq : v + 1 + n - 1 = v + (n + 1) - 1 := by omega
        rw [heq]; exact hfit
      exact ih (v + 1) hn' hfit'

/-- Every table capacity is at most the version-40 capacity 2331. -/
theorem capacityM_le (u : Nat) (hu : u ≤ 40) : capacityM u ≤ 2331 := by
  interval_cases u <;> decide

/-- If the payload exceeds 2331 bytes no version fits and the loop fails. -/
theorem selectVersionLoop_eq_none (n v dataLen : Nat) (hv : v + n ≤ 41)
    (hbig : 2331 < dataLen) : selectVersionLoop n v dataLen = none := by
  induction n generalizing v with
  | zero => rfl
  | succ n ih =>
    rw [selectVersionLoop]
    have hcap : ¬ dataLen ≤ capacityM v := by
      have := capacityM_le v (by omega)
      omega
    rw [if_neg hcap]
    exact ih (v + 1) (by omega)

/-- `selectVersion` fails exactly when the payload exceeds 2331 bytes. -/
theorem selectVersion_eq_none_iff (dataLen : Nat) :
    selectVersion dataLen = none ↔ 2331 < dataLen := by
  constructor
  · intro h
    by_contra hle
    have hfit : dataLen ≤ capacityM (1 + 40 - 1) := by
      have hd : dataLen ≤ 2331 := by omega
      simpa [capacityM, capacitiesM] using hd
    have hs := selectVersionLoop_isSome 40 1 dataLen (by omega) hfit
    rw [selectVersion] at h
    rw [h] at hs
    simp at hs

  · intro h
    exact selectVersionLoop_eq_none 40 1 dataLen (by omega) h

/-! ## Bitset lemmas -/

theorem testBit_setBit (n i j : Nat) :
    (setBit n i).testBit j = (n.testBit j || decide (i = j)) := by
  simp [setBit, Nat.testBit_lor, Nat.one_shiftLeft, Nat.testBit_two_pow]

theorem testBit_foldl_setBit (l : List Nat) (n j : Nat) :
    (l.foldl setBit n).testBit j = (n.testBit j || decide (j ∈ l)) := by
  induction l generalizing n with
  | nil => simp
  | cons a l ih =>
    rw [List.foldl_cons, ih, testBit_setBit]
    by_cases hj : j = a <;> by_cases hl : j ∈ l <;> simp [hj, hl, eq_comm]

theorem foldl_setBit_eq_lor (l : List Nat) (n : Nat) :
    l.foldl setBit n = n ||| l.foldl setBit 0 := by
  apply Nat.eq_of_testBit_eq
  intro i
  simp [testBit_foldl_setBit, Nat.testBit_lor]

theorem land_ne_zero_iff (m b : Nat) :
    (m &&& b ≠ 0) ↔ ∃ i, m.testBit i = true ∧ b.testBit i = true := by
  constructor
  · intro h
    by_contra hc
    push_neg at hc
    apply h
    apply Nat.eq_of_testBit_eq
    intro i
    simp only [Nat.testBit_land, Nat.zero_testBit]
    cases hmt : m.testBit i with
    | false => rfl
    | true => simpa using hc i hmt
  · rintro ⟨i, hm, hb⟩ h0
    have hbit := congrArg (fun n => n.testBit i) h0
    simp [Nat.testBit_land, hm, hb] at hbit

/-- Addresses are injective for in-bounds columns. -/
theorem bitAddr_inj (size r c r' c' : Nat) (hc : c < size) (hc' : c' < size)
    (h : bitAddr size r c = bitAddr size r' c') : r = r' ∧ c = c' := by
  unfold bitAddr at h
  have hs : 0 < size := Nat.lt_of_le_of_lt (Nat.zero_le _) hc
  have h1 : (r * size + c) / size = r := by
    rw [Nat.mul_comm r size, Nat.mul_add_div hs, Nat.div_eq_of_lt hc, Nat.add_zero]
  have h2 : (r' * size + c') / size = r' := by
    rw [Nat.mul_comm r' size, Nat.mul_add_div hs, Nat.div_eq_of_lt hc', Nat.add_zero]
  have hr : r = r' := by rw [← h1, ← h2, h]
  subst hr
  exact ⟨rfl, by omega⟩

/-! ## Grid-state field lemmas -/

theorem write_size (g : GridState) (r c : Nat) (b : Bool) :
    (g.write r c b).size = g.size := rfl

theorem write_reserved (g : GridState) (r c : Nat) (b : Bool) :
    (g.write r c b).reserved = g.reserved := rfl

theorem write_assigned (g : GridState) (r c : Nat) (b : Bool) :
    (g.write r c b).assigned = setBit g.assigned (bitAddr g.size r c) := rfl

theorem reserve_size (g : GridState) (r c : Nat) : (g.reserve r c).size = g.size := rfl

theorem reserve_assigned (g : GridState) (r c : Nat) :
    (g.reserve r c).assigned = g.assigned := rfl

theorem reserve_reserved (g : GridState) (r c : Nat) :
    (g.reserve r c).reserved = setBit g.reserved (bitAddr g.size r c) := rfl

theorem flip_size (g : GridState) (r c : Nat) : (g.flip r c).size = g.size := by
  unfold GridState.flip
  cases g.cell r c <;> rfl

theorem flip_reserved (g : GridState) (r c : Nat) :
    (g.flip r c).reserved = g.reserved := by
  unfold GridState.flip
  cases g.cell r c <;> rfl

theorem flip_assigned (g : GridState) (r c : Nat) :
    (g.flip r c).assigned = setBit g.assigned (bitAddr g.size r c) := by
  unfold GridState.flip
  cases g.cell r c <;> rfl

/-- Setting an already-set bit is the identity. -/
theorem setBit_eq_self (n i : Nat) (h : n.testBit i = true) : setBit n i = n := by
  apply Nat.eq_of_testBit_eq
  intro j
  rw [testBit_setBit]
  by_cases hij : i = j
  · subst hij; simp [h]
  · simp [hij]

/-- A fold preserves any property preserved by its step. -/
theorem foldl_preserves {α : Type} (P : GridState → Prop)
    (step : GridState → α → GridState) (h : ∀ g x, P g → P (step g x)) :
    ∀ (l : List α) (g : GridState), P g → P (l.foldl step g) := by
  intro l
  induction l with
  | nil => intro g hg; exact hg
  | cons a l ih => intro g hg; exact ih (step g a) (h g a hg)

theorem mem_gridPairs (a b : Nat) (rc : Nat × Nat) :
    rc ∈ gridPairs a b ↔ rc.1 < a ∧ rc.2 < b := by
  cases rc with
  | mk r c =>
    simp [gridPairs, List.mem_flatMap, List.mem_map, List.mem_range]

/-! ## `placeFinder` characterization -/

theorem placeFinderStep_size (row col : Int) (g : GridState) (p : Nat × Nat) :
    (placeFinderStep row col g p).size = g.size := by
  simp only [placeFinderStep]
  split <;> rfl

theorem placeFinder_size (g : GridState) (row col : Int) :
    (placeFinder g row col).size = g.size := by
  unfold placeFinder
  exact foldl_preserves (fun x => x.size = g.size) _
    (fun x p hx => by
      simp only at hx ⊢
      rw [placeFinderStep_size, hx]) _ g rfl

theorem foldl_placeFinderStep_fields (row col : Int) (l : List (Nat × Nat)) :
    ∀ (g : GridState),
      (l.foldl (placeFinderStep row col) g).reserved =
        (l.filterMap (finderAddrOf g.size row col)).foldl setBit g.reserved ∧
      (l.foldl (placeFinderStep row col) g).assigned =
        (l.filterMap (finderAddrOf g.size row col)).foldl setBit g.assigned := by
  induction l with
  | nil => intro g; exact ⟨rfl, rfl⟩
  | cons a l ih =>
    intro g
    rw [List.foldl_cons, List.filterMap_cons]
    by_cases h : oob g.size (row + ((a.1 : Int) - 1)) (col + ((a.2 : Int) - 1))
    · have hstep : placeFinderStep row col g a = g := by
        unfold placeFinderStep
        rw [if_pos h]
      have haddr : finderAddrOf g.size row col a = none := by
        unfold finderAddrOf
        rw [if_pos h]
      rw [hstep, haddr]
      exact ih g
    · have hstep : placeFinderStep row col g a =
          (g.write (row + ((a.1 : Int) - 1)).toNat (col + ((a.2 : Int) - 1)).toNat
            (finderVal ((a.1 : Int) - 1) ((a.2 : Int) - 1))).reserve
            (row + ((a.1 : Int) - 1)).toNat (col + ((a.2 : Int) - 1)).toNat := by
        unfold placeFinderStep
        rw [if_neg h]
      have haddr : finderAddrOf g.size row col a =
          some (bitAddr g.size (row + ((a.1 : Int) - 1)).toNat
            (col + ((a.2 : Int) - 1)).toNat) := by
        unfold finderAddrOf
        rw [if_neg h]
      rw [hstep, haddr]
      have hsz : ((g.write (row + ((a.1 : Int) - 1)).toNat
          (col + ((a.2 : Int) - 1)).toNat
          (finderVal ((a.1 : Int) - 1) ((a.2 : Int) - 1))).reserve
          (row + ((a.1 : Int) - 1)).toNat (col + ((a.2 : Int) - 1)).toNat).size
          = g.size := rfl
      obtain ⟨ih1, ih2⟩ := ih ((g.write _ _ _).reserve _ _)
      rw [List.foldl_cons]
      constructor
      · rw [ih1, hsz]
        rfl
      · rw [ih2, hsz]
        rfl

theorem placeFinder_reserved (g : GridState) (row col : Int) :
    (placeFinder g row col).reserved =
      (finderAddrs g.size row col).foldl setBit g.reserved :=
  (foldl_placeFinderStep_fields row col (gridPairs 9 9) g).1

theorem placeFinder_assigned (g : GridState) (row col : Int) :
    (placeFinder g row col).assigned =
      (finderAddrs g.size row col).foldl setBit g.assigned :=
  (foldl_placeFinderStep_fields row col (gridPairs 9 9) g).2

/-! ## `placeAlignment` characterization -/

theorem foldl_placeAlignStep_fields (row col : Int) (l : List (Nat × Nat)) :
    ∀ (g : GridState),
      (l.foldl (placeAlignStep row col) g).size = g.size ∧
      (l.foldl (placeAlignStep row col) g).reserved =
        (l.map (alignBoxAddrOf g.size row col)).foldl setBit g.reserved ∧
      (l.foldl (placeAlignStep row col) g).assigned =
        (l.map (alignBoxAddrOf g.size row col)).foldl setBit g.assigned := by
  induction l with
  | nil => intro g; exact ⟨rfl, rfl, rfl⟩
  | cons a l ih =>
    intro g
    rw [List.foldl_cons, List.map_cons, List.foldl_cons, List.foldl_cons]
    obtain ⟨ih0, ih1, ih2⟩ := ih (placeAlignStep row col g a)
    exact ⟨ih0, by rw [ih1]; rfl, by rw [ih2]; rfl⟩

theorem placeAlignment_size (g : GridState) (row col : Int) :
    (placeAlignment g row col).size = g.size := by
  unfold placeAlignment
  split
  · rfl
  · exact (foldl_placeAlignStep_fields row col (gridPairs 5 5) g).1

theorem placeAlignment_reserved (g : GridState) (row col : Int) :
    (placeAlignment g row col).reserved =
      if alignOverlap g row col then g.reserved
      else (alignBoxAddrs g.size row col).foldl setBit g.reserved := by
  unfold placeAlignment
  split
  · rfl
  · exact (foldl_placeAlignStep_fields row col (gridPairs 5 5) g).2.1

theorem placeAlignment_assigned (g : GridState) (row col : Int) :
    (placeAlignment g row col).assigned =
      if alignOverlap g row col then g.assigned
      else (alignBoxAddrs g.size row col).foldl setBit g.assigned := by
  unfold placeAlignment
  split
  · rfl
  · exact (foldl_placeAlignStep_fields row col (gridPairs 5 5) g).2.2

theorem testBit_boxMask (size : Nat) (row col : Int) (i : Nat) :
    (boxMask size row col).testBit i = decide (i ∈ alignBoxAddrs size row col) := by
  unfold boxMask
  rw [testBit_foldl_setBit]
  simp

theorem alignOverlapMask_eq_land (size m row col : Nat)
    (h1 : 2 ≤ row) (h2 : row + 3 ≤ size) (h3 : 2 ≤ col) (h4 : col + 3 ≤ size) :
    alignOverlapMask size m (row : Int) (col : Int) =
      (m &&& boxMask size (row : Int) (col : Int) != 0) := by
  rw [Bool.eq_iff_iff]
  constructor
  · intro h
    simp only [alignOverlapMask, List.any_eq_true, List.mem_range] at h
    obtain ⟨r5, hr5, c5, hc5, hbit⟩ := h
    have hnoob : ¬ oob size ((row : Int) + ((r5 : Int) - 2))
        ((col : Int) + ((c5 : Int) - 2)) := by
      unfold oob; push_neg
      refine ⟨by omega, by omega, by omega, by omega⟩
    rw [if_neg hnoob] at hbit
    rw [bne_iff_ne, land_ne_zero_iff]
    refine ⟨bitAddr size ((row : Int) + ((r5 : Int) - 2)).toNat
      ((col : Int) + ((c5 : Int) - 2)).toNat, hbit, ?_⟩
    rw [testBit_boxMask]
    simp only [decide_eq_true_eq]
    unfold alignBoxAddrs
    exact List.mem_map.mpr ⟨(r5, c5), (mem_gridPairs 5 5 _).mpr ⟨hr5, hc5⟩, rfl⟩
  · intro h
    rw [bne_iff_ne, land_ne_zero_iff] at h
    obtain ⟨i, hm, hbox⟩ := h
    rw [testBit_boxMask] at hbox
    simp only [decide_eq_true_eq] at hbox
    unfold alignBoxAddrs at hbox
    obtain ⟨rc5, hrc5, rfl⟩ := List.mem_map.mp hbox
    obtain ⟨h5a, h5b⟩ := (mem_gridPairs 5 5 rc5).mp hrc5
    simp only [alignOverlapMask, List.any_eq_true, List.mem_range]
    refine ⟨rc5.1, h5a, rc5.2, h5b, ?_⟩
    have hnoob : ¬ oob size ((row : Int) + ((rc5.1 : Int) - 2))
        ((col : Int) + ((rc5.2 : Int) - 2)) := by
      unfold oob; push_neg
      refine ⟨by omega, by omega, by omega, by omega⟩
    rw [if_neg hnoob]
    exact hm

/-! ## The alignment loop against its mask mirror -/

theorem alignCenterStep_fields (g : GridState) (rc : Nat × Nat)
    (hb : 2 ≤ rc.1 ∧ rc.1 + 3 ≤ g.size ∧ 2 ≤ rc.2 ∧ rc.2 + 3 ≤ g.size) :
    (alignCenterStep g rc).reserved = alignStepM g.size g.reserved rc ∧
    (alignCenterStep g rc).size = g.size := by
  obtain ⟨hb1, hb2, hb3, hb4⟩ := hb
  unfold alignCenterStep alignStepM
  by_cases hres : g.isReserved rc.1 rc.2 = true
  · have hres' : g.reserved.testBit (bitAddr g.size rc.1 rc.2) = true := hres
    rw [if_pos hres, if_pos hres']
    exact ⟨rfl, rfl⟩
  · have hres' : ¬ g.reserved.testBit (bitAddr g.size rc.1 rc.2) = true := hres
    rw [if_neg hres, if_neg hres']
    have hov : alignOverlap g (rc.1 : Int) (rc.2 : Int) =
        (g.reserved &&& boxMask g.size (rc.1 : Int) (rc.2 : Int) != 0) := by
      unfold alignOverlap
      exact alignOverlapMask_eq_land g.size g.reserved rc.1 rc.2 hb1 hb2 hb3 hb4
    constructor
    · rw [placeAlignment_reserved, hov]
      by_cases hland :
          (g.reserved &&& boxMask g.size (rc.1 : Int) (rc.2 : Int) != 0) = true
      · rw [if_pos hland, if_pos hland]
      · rw [if_neg hland, if_neg hland]
        rw [foldl_setBit_eq_lor]
        rfl
    · rw [placeAlignment_size]

theorem foldl_alignCenterStep (l : List (Nat × Nat)) :
    ∀ g : GridState,
      (∀ rc ∈ l, 2 ≤ rc.1 ∧ rc.1 + 3 ≤ g.size ∧ 2 ≤ rc.2 ∧ rc.2 + 3 ≤ g.size) →
      (l.foldl alignCenterStep g).reserved =
        l.foldl (alignStepM g.size) g.reserved ∧
      (l.foldl alignCenterStep g).size = g.size := by
  induction l with
  | nil => intro g _; exact ⟨rfl, rfl⟩
  | cons a l ih =>
    intro g hb
    obtain ⟨hstep_res, hstep_sz⟩ :=
      alignCenterStep_fields g a (hb a (List.mem_cons_self a l))
    rw [List.foldl_cons, List.foldl_cons]
    have hb' : ∀ rc ∈ l, 2 ≤ rc.1 ∧ rc.1 + 3 ≤ (alignCenterStep g a).size ∧
        2 ≤ rc.2 ∧ rc.2 + 3 ≤ (alignCenterStep g a).size := by
      intro rc h
      rw [hstep_sz]
      exact hb rc (List.mem_cons_of_mem a h)
    obtain ⟨ih1, ih2⟩ := ih (alignCenterStep g a) hb'
    constructor
    · rw [ih1, hstep_res, hstep_sz]
    · rw [ih2, hstep_sz]

/-! ## Timing characterization -/

theorem placeTimingStep_fields (g : GridState) (i : Nat) :
    (placeTimingStep g i).reserved =
      setBit (setBit g.reserved (bitAddr g.size 6 i)) (bitAddr g.size i 6) ∧
    (placeTimingStep g i).size = g.size := by
  simp only [placeTimingStep]
  by_cases h1 : g.isReserved 6 i
  · rw [if_pos h1]
    have e1 : setBit g.reserved (bitAddr g.size 6 i) = g.reserved :=
      setBit_eq_self _ _ h1
    rw [e1]
    by_cases h2 : g.isReserved i 6
    · rw [if_pos h2]
      have e2 : setBit g.reserved (bitAddr g.size i 6) = g.reserved :=
        setBit_eq_self _ _ h2
      rw [e2]
      exact ⟨rfl, rfl⟩
    · rw [if_neg h2]
      exact ⟨rfl, rfl⟩
  · rw [if_neg h1]
    by_cases h2 : ((g.write 6 i (i % 2 == 0)).reserve 6 i).isReserved i 6
    · rw [if_pos h2]
      have e2 : setBit (setBit g.reserved (bitAddr g.size 6 i)) (bitAddr g.size i 6)
          = setBit g.reserved (bitAddr g.size 6 i) := setBit_eq_self _ _ h2
      rw [e2]
      exact ⟨rfl, rfl⟩
    · rw [if_neg h2]
      exact ⟨rfl, rfl⟩

theorem foldl_placeTimingStep (l : List Nat) :
    ∀ g : GridState,
      (l.foldl placeTimingStep g).reserved =
        (l.flatMap fun i => [bitAddr g.size 6 i, bitAddr g.size i 6]).foldl
          setBit g.reserved ∧
      (l.foldl placeTimingStep g).size = g.size := by
  induction l with
  | nil => intro g; exact ⟨rfl, rfl⟩
  | cons a l ih =>
    intro g
    obtain ⟨hres, hsz⟩ := placeTimingStep_fields g a
    rw [List.foldl_cons, List.flatMap_cons]
    obtain ⟨ih1, ih2⟩ := ih (placeTimingStep g a)
    constructor
    · rw [ih1, hres, hsz]
      rfl
    · rw [ih2, hsz]

theorem placeTiming_fields (g : GridState) :
    (placeTiming g).reserved =
      ((List.range' 8 (g.size - 16)).flatMap fun i =>
        [bitAddr g.size 6 i, bitAddr g.size i 6]).foldl setBit g.reserved ∧
    (placeTiming g).size = g.size :=
  foldl_placeTimingStep (List.range' 8 (g.size - 16)) g

/-- The timing fold in the two-strip form used by `baseResMask`. -/
theorem timing_foldl_eq_strips (s m k : Nat) :
    ((List.range' 8 k).flatMap fun i =>
      [bitAddr s 6 i, bitAddr s i 6]).foldl setBit m =
    m ||| ((List.range' 8 k).map fun i => bitAddr s 6 i).foldl setBit 0
      ||| ((List.range' 8 k).map fun i => bitAddr s i 6).foldl setBit 0 := by
  apply Nat.eq_of_testBit_eq
  intro j
  simp only [testBit_foldl_setBit, Nat.testBit_lor, Nat.zero_testBit, Bool.false_or,
    List.mem_flatMap, List.mem_map, List.mem_cons, List.not_mem_nil, or_false]
  by_cases hm : m.testBit j
  · simp [hm]
  · simp only [hm, Bool.false_or]
    rw [Bool.eq_iff_iff]
    simp only [decide_eq_true_eq, Bool.or_eq_true, decide_eq_true_eq]
    constructor
    · rintro ⟨i, hi, h | h⟩
      · exact Or.inl ⟨i, hi, h.symm⟩
      · exact Or.inr ⟨i, hi, h.symm⟩
    · rintro (⟨i, hi, h⟩ | ⟨i, hi, h⟩)
      · exact ⟨i, hi, Or.inl h.symm⟩
      · exact ⟨i, hi, Or.inr h.symm⟩

/-! ## Dark module, format and version reservations -/

theorem placeDarkModule_fields (g : GridState) :
    (placeDarkModule g).reserved =
      setBit g.reserved (bitAddr g.size (g.size - 8) 8) ∧
    (placeDarkModule g).size = g.size ∧
    (placeDarkModule g).assigned =
      setBit g.assigned (bitAddr g.size (g.size - 8) 8) :=
  ⟨rfl, rfl, rfl⟩

theorem foldl_formatStep (l : List Nat) :
    ∀ g : GridState,
      ((l.foldl (fun g i =>
        (((g.reserve 8 i).reserve 8 (g.size - 1 - i)).reserve i 8).reserve
          (g.size - 1 - i) 8) g).reserved =
        (l.flatMap (formatAddrs4 g.size)).foldl setBit g.reserved) ∧
      ((l.foldl (fun g i =>
        (((g.reserve 8 i).reserve 8 (g.size - 1 - i)).reserve i 8).reserve
          (g.size - 1 - i) 8) g).size = g.size) ∧
      ((l.foldl (fun g i =>
        (((g.reserve 8 i).reserve 8 (g.size - 1 - i)).reserve i 8).reserve
          (g.size - 1 - i) 8) g).assigned = g.assigned) := by
  induction l with
  | nil => intro g; exact ⟨rfl, rfl, rfl⟩
  | cons a l ih =>
    intro g
    rw [List.foldl_cons, List.flatMap_cons]
    obtain ⟨ih1, ih2, ih3⟩ :=
      ih ((((g.reserve 8 a).reserve 8 (g.size - 1 - a)).reserve a 8).reserve
        (g.size - 1 - a) 8)
    refine ⟨?_, ih2, ih3⟩
    rw [ih1]
    rfl

theorem reserveFormat_fields (g : GridState) :
    (reserveFormat g).reserved = (formatAddrs g.size).foldl setBit g.reserved ∧
    (reserveFormat g).size = g.size ∧
    (reserveFormat g).assigned = g.assigned := by
  obtain ⟨h1, h2, h3⟩ := foldl_formatStep (List.range 8) g
  unfold reserveFormat
  refine ⟨?_, ?_, ?_⟩
  · rw [reserve_reserved, h1, h2]
    unfold formatAddrs
    rw [List.foldl_append]
    rfl
  · rw [reserve_size, h2]
  · rw [reserve_assigned, h3]

theorem foldl_versionInner (i : Nat) (l : List Nat) :
    ∀ g : GridState,
      ((l.foldl (fun g j =>
        (g.reserve i (g.size - 11 + j)).reserve (g.size - 11 + j) i) g).reserved =
        (l.flatMap (versionAddrs2 g.size i)).foldl setBit g.reserved) ∧
      ((l.foldl (fun g j =>
        (g.reserve i (g.size - 11 + j)).reserve (g.size - 11 + j) i) g).size =
        g.size) ∧
      ((l.foldl (fun g j =>
        (g.reserve i (g.size - 11 + j)).reserve (g.size - 11 + j) i) g).assigned =
        g.assigned) := by
  induction l with
  | nil => intro g; exact ⟨rfl, rfl, rfl⟩
  | cons a l ih =>
    intro g
    rw [List.foldl_cons, List.flatMap_cons]
    obtain ⟨ih1, ih2, ih3⟩ := ih ((g.reserve i (g.size - 11 + a)).reserve
      (g.size - 11 + a) i)
    refine ⟨?_, ih2, ih3⟩
    rw [ih1]
    rfl

theorem foldl_versionOuter (l : List Nat) :
    ∀ g : GridState,
      ((l.foldl (fun g i => (List.range 3).foldl (fun g j =>
        (g.reserve i (g.size - 11 + j)).reserve (g.size - 11 + j) i) g) g).reserved =
        (l.flatMap fun i =>
          (List.range 3).flatMap (versionAddrs2 g.size i)).foldl
          setBit g.reserved) ∧
      ((l.foldl (fun g i => (List.range 3).foldl (fun g j =>
        (g.reserve i (g.size - 11 + j)).reserve (g.size - 11 + j) i) g) g).size =
        g.size) ∧
      ((l.foldl (fun g i => (List.range 3).foldl (fun g j =>
        (g.reserve i (g.size - 11 + j)).reserve (g.size - 11 + j) i) g) g).assigned =
        g.assigned) := by
  induction l with
  | nil => intro g; exact ⟨rfl, rfl, rfl⟩
  | cons a l ih =>
    intro g
    rw [List.foldl_cons, List.flatMap_cons]
    obtain ⟨in1, in2, in3⟩ := foldl_versionInner a (List.range 3) g
    obtain ⟨ih1, ih2, ih3⟩ := ih ((List.range 3).foldl (fun g j =>
      (g.reserve a (g.size - 11 + j)).reserve (g.size - 11 + j) a) g)
    refine ⟨?_, ?_, ?_⟩
    · rw [ih1, in1, in2, List.foldl_append]
    · rw [ih2, in2]
    · rw [ih3, in3]

theorem reserveVersion_fields (g : GridState) (version : Nat) :
    (reserveVersion g version).reserved =
      (versionAddrs g.size version).foldl setBit g.reserved ∧
    (reserveVersion g version).size = g.size ∧
    (reserveVersion g version).assigned = g.assigned := by
  unfold reserveVersion versionAddrs
  by_cases h : version < 7
  · rw [if_pos h, if_pos h]
    exact ⟨rfl, rfl, rfl⟩
  · rw [if_neg h, if_neg h]
    exact foldl_versionOuter (List.range 6) g

/-! ## Characterization of `buildBase` by the mask mirror -/

theorem alignPos_bounds :
    ∀ v, v < 41 → ∀ x ∈ getAlignmentPositions v, 6 ≤ x ∧ x + 7 ≤ v * 4 + 17 := by
  decide

theorem mem_centerPairs (v : Nat) (rc : Nat × Nat) :
    rc ∈ centerPairs v ↔
      rc.1 ∈ getAlignmentPositions v ∧ rc.2 ∈ getAlignmentPositions v := by
  unfold centerPairs
  rw [List.mem_flatMap]
  constructor
  · rintro ⟨r, hr, hm⟩
    rw [List.mem_map] at hm
    obtain ⟨c, hc, hrc⟩ := hm
    cases hrc
    exact ⟨hr, hc⟩
  · rintro ⟨h1, h2⟩
    refine ⟨rc.1, h1, List.mem_map.mpr ⟨rc.2, h2, ?_⟩⟩
    cases rc
    rfl

theorem baseFinders_fields (v : Nat) :
    (baseFinders v).size = v * 4 + 17 ∧
    (baseFinders v).reserved =
      (finderAddrs (v * 4 + 17) 0 0).foldl setBit 0 |||
        (finderAddrs (v * 4 + 17) (((v * 4 + 17 : Nat) : Int) - 7) 0).foldl setBit 0 |||
        (finderAddrs (v * 4 + 17) 0 (((v * 4 + 17 : Nat) : Int) - 7)).foldl setBit 0 ∧
    (baseFinders v).assigned = (baseFinders v).reserved := by
  have e0s : (emptyGrid (v * 4 + 17)).size = v * 4 + 17 := rfl
  have h1s : (placeFinder (emptyGrid (v * 4 + 17)) 0 0).size = v * 4 + 17 := by
    rw [placeFinder_size]
    exact e0s
  have h2s : (placeFinder (placeFinder (emptyGrid (v * 4 + 17)) 0 0)
      (((v * 4 + 17 : Nat) : Int) - 7) 0).size = v * 4 + 17 := by
    rw [placeFinder_size, h1s]
  refine ⟨?_, ?_, ?_⟩
  · show (placeFinder _ _ _).size = _
    rw [placeFinder_size, h2s]
  · show (placeFinder _ 0 _).reserved = _
    rw [placeFinder_reserved, h2s, placeFinder_reserved, h1s, placeFinder_reserved, e0s]
    show (finderAddrs _ 0 _).foldl setBit
      ((finderAddrs _ _ 0).foldl setBit ((finderAddrs _ 0 0).foldl setBit 0)) = _
    rw [foldl_setBit_eq_lor (finderAddrs (v * 4 + 17) 0 (((v * 4 + 17 : Nat) : Int) - 7)),
      foldl_setBit_eq_lor (finderAddrs (v * 4 + 17) (((v * 4 + 17 : Nat) : Int) - 7) 0)]
  · show (placeFinder _ 0 _).assigned = (placeFinder _ 0 _).reserved
    rw [placeFinder_assigned, placeFinder_reserved, h2s, placeFinder_assigned,
      placeFinder_reserved, h1s, placeFinder_assigned, placeFinder_reserved, e0s]
    rfl

theorem alignCenterStep_pres_eq (g : GridState) (rc : Nat × Nat)
    (h : g.assigned = g.reserved) :
    (alignCenterStep g rc).assigned = (alignCenterStep g rc).reserved := by
  unfold alignCenterStep
  by_cases h1 : g.isReserved rc.1 rc.2 = true
  · rw [if_pos h1]
    exact h
  · rw [if_neg h1]
    rw [placeAlignment_assigned, placeAlignment_reserved, h]

theorem placeTimingStep_pres_eq (g : GridState) (i : Nat)
    (h : g.assigned = g.reserved) :
    (placeTimingStep g i).assigned = (placeTimingStep g i).reserved := by
  simp only [placeTimingStep]
  by_cases h1 : g.isReserved 6 i = true
  · rw [if_pos h1]
    by_cases h2 : g.isReserved i 6 = true
    · rw [if_pos h2]
      exact h
    · rw [if_neg h2]
      show setBit g.assigned (bitAddr g.size i 6) =
        setBit g.reserved (bitAddr g.size i 6)
      rw [h]
  · rw [if_neg h1]
    by_cases h2 : ((g.write 6 i (i % 2 == 0)).reserve 6 i).isReserved i 6 = true
    · rw [if_pos h2]
      show setBit g.assigned (bitAddr g.size 6 i) =
        setBit g.reserved (bitAddr g.size 6 i)
      rw [h]
    · rw [if_neg h2]
      show setBit (setBit g.assigned (bitAddr g.size 6 i)) (bitAddr g.size i 6) =
        setBit (setBit g.reserved (bitAddr g.size 6 i)) (bitAddr g.size i 6)
      rw [h]

theorem baseDark_assigned_eq_reserved (v : Nat) :
    (baseDark v).assigned = (baseDark v).reserved := by
  have hF : (baseFinders v).assigned = (baseFinders v).reserved :=
    (baseFinders_fields v).2.2
  have hA : (baseAlign v).assigned = (baseAlign v).reserved := by
    unfold baseAlign
    exact foldl_preserves (fun g => g.assigned = g.reserved) alignCenterStep
      alignCenterStep_pres_eq (centerPairs v) (baseFinders v) hF
  have hT : (baseTiming v).assigned = (baseTiming v).reserved := by
    unfold baseTiming placeTiming
    exact foldl_preserves (fun g => g.assigned = g.reserved) placeTimingStep
      placeTimingStep_pres_eq _ (baseAlign v) hA
  unfold baseDark
  obtain ⟨hr, _, ha⟩ := placeDarkModule_fields (baseTiming v)
  rw [ha, hr, hT]

theorem buildBase_fields (v : Nat) (h40 : v ≤ 40) :
    (buildBase v).reserved = baseResMask v ∧
    (buildBase v).size = v * 4 + 17 := by
  obtain ⟨hFs, hFr, _⟩ := baseFinders_fields v
  have hbounds : ∀ rc ∈ centerPairs v, 2 ≤ rc.1 ∧
      rc.1 + 3 ≤ (baseFinders v).size ∧ 2 ≤ rc.2 ∧
      rc.2 + 3 ≤ (baseFinders v).size := by
    intro rc hrc
    obtain ⟨hr, hc⟩ := (mem_centerPairs v rc).mp hrc
    obtain ⟨hr1, hr2⟩ := alignPos_bounds v (by omega) rc.1 hr
    obtain ⟨hc1, hc2⟩ := alignPos_bounds v (by omega) rc.2 hc
    rw [hFs]
    exact ⟨by omega, by omega, by omega, by omega⟩
  obtain ⟨hAr, hAs⟩ := foldl_alignCenterStep (centerPairs v) (baseFinders v) hbounds
  have hAr' : (baseAlign v).reserved =
      (centerPairs v).foldl (alignStepM (v * 4 + 17)) (baseFinders v).reserved := by
    unfold baseAlign
    rw [hAr, hFs]
  have hAs' : (baseAlign v).size = v * 4 + 17 := by
    unfold baseAlign
    rw [hAs, hFs]
  obtain ⟨hTr, hTs⟩ := placeTiming_fields (baseAlign v)
  have hTr' : (baseTiming v).reserved =
      (baseAlign v).reserved |||
        ((List.range' 8 (v * 4 + 17 - 16)).map fun i =>
          bitAddr (v * 4 + 17) 6 i).foldl setBit 0 |||
        ((List.range' 8 (v * 4 + 17 - 16)).map fun i =>
          bitAddr (v * 4 + 17) i 6).foldl setBit 0 := by
    unfold baseTiming
    rw [hTr, hAs']
    exact timing_foldl_eq_strips (v * 4 + 17) (baseAlign v).reserved (v * 4 + 17 - 16)
  have hTs' : (baseTiming v).size = v * 4 + 17 := by
    unfold baseTiming
    rw [hTs, hAs']
  obtain ⟨hDr, hDs, _⟩ := placeDarkModule_fields (baseTiming v)
  have hDr' : (baseDark v).reserved =
      setBit (baseTiming v).reserved
        (bitAddr (v * 4 + 17) (v * 4 + 17 - 8) 8) := by
    unfold baseDark
    rw [hDr, hTs']
  have hDs' : (baseDark v).size = v * 4 + 17 := by
    unfold baseDark
    rw [hDs, hTs']
  obtain ⟨hGr, hGs, _⟩ := reserveFormat_fields (baseDark v)
  have hGr' : (reserveFormat (baseDark v)).reserved =
      (baseDark v).reserved ||| (formatAddrs (v * 4 + 17)).foldl setBit 0 := by
    rw [hGr, hDs', foldl_setBit_eq_lor]
  have hGs' : (reserveFormat (baseDark v)).size = v * 4 + 17 := by
    rw [hGs, hDs']
  obtain ⟨hVr, hVs, _⟩ := reserveVersion_fields (reserveFormat (baseDark v)) v
  constructor
  · show (reserveVersion (reserveFormat (baseDark v)) v).reserved = _
    rw [hVr, hGs', foldl_setBit_eq_lor, hGr', hDr', hTr', hAr', hFr]
    rfl
  · show (reserveVersion (reserveFormat (baseDark v)) v).size = _
    rw [hVs, hGs']


/-! ## Popcount correctness: `popcountRows` against the bit count `nbits` -/

theorem nbits_add (W1 W2 n : Nat) :
    nbits (W1 + W2) n = nbits W1 n + nbits W2 (n >>> W1) := by
  unfold nbits
  rw [List.range_add, List.countP_append]
  congr 1
  rw [List.countP_map]
  apply List.countP_congr
  intro i _
  simp [Function.comp, Nat.testBit_shiftRight]

theorem nbits_zero_val (W : Nat) : nbits W 0 = 0 := by
  unfold nbits
  simp [Nat.zero_testBit]

set_option maxRecDepth 10000 in
theorem pc8_eq_nbits : ∀ b, b < 256 → pc8 b = nbits 8 b := by decide

theorem nbits_land_mask (W s n : Nat) (h : s ≤ W) :
    nbits W (n &&& ((1 <<< s) - 1)) = nbits s n := by
  have hmask : (1 <<< s : Nat) = 2 ^ s := Nat.one_shiftLeft s
  obtain ⟨d, rfl⟩ := Nat.le.dest h
  rw [nbits_add]
  have hle : n &&& ((1 <<< s) - 1) ≤ (1 <<< s) - 1 := Nat.and_le_right
  have hz : (n &&& ((1 <<< s) - 1)) >>> s = 0 := by
    rw [Nat.shiftRight_eq_div_pow]
    apply Nat.div_eq_of_lt
    have hpos : 0 < 2 ^ s := Nat.two_pow_pos s
    omega
  rw [hz, nbits_zero_val, Nat.add_zero]
  unfold nbits
  apply List.countP_congr
  intro i hi
  rw [List.mem_range] at hi
  rw [hmask]
  simp [Nat.testBit_land, Nat.testBit_two_pow_sub_one, hi]

theorem popcountBytes_eq_nbits (k : Nat) : ∀ n, popcountBytes k n = nbits (8 * k) n := by
  induction k with
  | zero =>
    intro n
    show 0 = nbits 0 n
    rw [nbits]
    rfl
  | succ k ih =>
    intro n
    show pc8 (n &&& 255) + popcountBytes k (n >>> 8) = nbits (8 * (k + 1)) n
    have hlt : n &&& 255 < 256 := by
      have h255 : n &&& 255 ≤ 255 := Nat.and_le_right
      omega
    have h255m : (255 : Nat) = (1 <<< 8) - 1 := by decide
    rw [pc8_eq_nbits _ hlt, ih]
    have e1 : nbits 8 (n &&& 255) = nbits 8 n := by
      rw [h255m]
      exact nbits_land_mask 8 8 n (Nat.le_refl 8)
    rw [e1]
    have e2 : 8 * (k + 1) = 8 + 8 * k := by ring
    rw [e2, nbits_add]

theorem popcountRows_eq_nbits (r : Nat) :
    ∀ s n, popcountRows r s n = nbits (r * s) n := by
  induction r with
  | zero =>
    intro s n
    rw [Nat.zero_mul]
    show 0 = nbits 0 n
    rw [nbits]
    rfl
  | succ r ih =>
    intro s n
    show popcountBytes ((s + 7) / 8) (n &&& ((1 <<< s) - 1)) +
        popcountRows r s (n >>> s) = nbits ((r + 1) * s) n
    rw [popcountBytes_eq_nbits, ih]
    have h1 : nbits (8 * ((s + 7) / 8)) (n &&& ((1 <<< s) - 1)) = nbits s n := by
      apply nbits_land_mask
      omega
    rw [h1]
    have h2 : (r + 1) * s = s + r * s := by ring
    rw [h2, nbits_add]

/-! ## Cell counting over the grid -/

theorem countP_not_add {α : Type} (l : List α) (p : α → Bool) :
    l.countP (fun a => !p a) + l.countP p = l.length := by
  induction l with
  | nil => rfl
  | cons a l ih =>
    rw [List.countP_cons, List.countP_cons, List.length_cons]
    cases h : p a <;> simp [h] <;> omega

theorem gridPairs_map_addr (a s : Nat) :
    ((gridPairs a s).map fun rc => bitAddr s rc.1 rc.2) = List.range (a * s) := by
  induction a with
  | zero => rw [Nat.zero_mul]; rfl
  | succ a ih =>
    have hr : List.range (a + 1) = List.range a ++ [a] := List.range_succ a
    show ((List.range (a + 1)).flatMap fun r =>
        (List.range s).map fun c => (r, c)).map (fun rc => bitAddr s rc.1 rc.2) = _
    rw [hr, List.flatMap_append, List.map_append]
    have e1 : ((List.range a).flatMap fun r =>
        (List.range s).map fun c => (r, c)) = gridPairs a s := rfl
    rw [e1, ih]
    have e2 : (a + 1) * s = a * s + s := by ring
    rw [e2, List.range_add]
    congr 1
    rw [List.flatMap_cons, List.flatMap_nil, List.append_nil, List.map_map]
    rfl

theorem countP_gridPairs_addr (a s : Nat) (q : Nat → Bool) :
    ((gridPairs a s).countP fun rc => q (bitAddr s rc.1 rc.2)) =
      (List.range (a * s)).countP q := by
  rw [← gridPairs_map_addr a s, List.countP_map]
  rfl

/-- `freeCellCount` counts the cells of the symbol whose address is clear in
the mirror reservation mask. -/
theorem freeCellCount_eq (v : Nat) :
    freeCellCount v =
      ((gridPairs (v * 4 + 17) (v * 4 + 17)).countP fun rc =>
        !(baseResMask v).testBit (bitAddr (v * 4 + 17) rc.1 rc.2)) := by
  show (v * 4 + 17) * (v * 4 + 17) -
      popcountRows (v * 4 + 17) (v * 4 + 17) (baseResMask v) = _
  rw [popcountRows_eq_nbits,
    countP_gridPairs_addr (v * 4 + 17) (v * 4 + 17)
      fun i => !(baseResMask v).testBit i]
  have h := countP_not_add (List.range ((v * 4 + 17) * (v * 4 + 17)))
    fun i => (baseResMask v).testBit i
  rw [List.length_range] at h
  show (v * 4 + 17) * (v * 4 + 17) - nbits ((v * 4 + 17) * (v * 4 + 17)) (baseResMask v) = _
  rw [nbits]
  omega

/-! ## Cell-level write lemmas -/

theorem testBit_clearBit (n i j : Nat) :
    (clearBit n i).testBit j = (n.testBit j && !decide (i = j)) := by
  unfold clearBit
  by_cases h : n.testBit i = true
  · rw [if_pos h, Nat.testBit_xor, Nat.one_shiftLeft, Nat.testBit_two_pow]
    by_cases hij : i = j
    · subst hij
      simp [h]
    · simp [hij]
  · rw [if_neg h]
    by_cases hij : i = j
    · subst hij
      simp [Bool.eq_false_iff.mpr h]
    · simp [hij]

theorem cell_write_self (g : GridState) (r c : Nat) (b : Bool) :
    (g.write r c b).cell r c = some b := by
  cases b <;>
    simp [GridState.cell, GridState.write, testBit_setBit, testBit_clearBit]

theorem cell_write_ne (g : GridState) (r c r' c' : Nat) (b : Bool)
    (h : bitAddr g.size r' c' ≠ bitAddr g.size r c) :
    (g.write r' c' b).cell r c = g.cell r c := by
  cases b <;>
    simp [GridState.cell, GridState.write, testBit_setBit, testBit_clearBit, h]

/-! ## `placeData` fold characterization -/

theorem placeDataStep_inv (T : Nat) (cw : List Nat) (st : GridState × Nat)
    (p : Nat × Nat) :
    (placeDataStep T cw st p).1.reserved = st.1.reserved ∧
      (placeDataStep T cw st p).1.size = st.1.size := by
  unfold placeDataStep
  split
  · exact ⟨rfl, rfl⟩
  · split
    · exact ⟨rfl, rfl⟩
    · exact ⟨rfl, rfl⟩

theorem placeData_foldl_inv (T : Nat) (cw : List Nat) :
    ∀ (l : List (Nat × Nat)) (st : GridState × Nat),
      (l.foldl (placeDataStep T cw) st).1.reserved = st.1.reserved ∧
        (l.foldl (placeDataStep T cw) st).1.size = st.1.size := by
  intro l
  induction l with
  | nil => intro st; exact ⟨rfl, rfl⟩
  | cons p l ih =>
    intro st
    rw [List.foldl_cons]
    obtain ⟨h1, h2⟩ := ih (placeDataStep T cw st p)
    obtain ⟨h3, h4⟩ := placeDataStep_inv T cw st p
    exact ⟨h1.trans h3, h2.trans h4⟩

theorem placeData_foldl_count (T : Nat) (cw : List Nat) :
    ∀ (l : List (Nat × Nat)) (st : GridState × Nat), st.2 ≤ T →
      (l.foldl (placeDataStep T cw) st).2 =
        min T (st.2 + l.countP fun p => !st.1.isReserved p.1 p.2) := by
  intro l
  induction l with
  | nil =>
    intro st hT
    show st.2 = min T (st.2 + 0)
    omega
  | cons p l ih =>
    intro st hT
    rw [List.foldl_cons, List.countP_cons]
    by_cases hres : st.1.isReserved p.1 p.2 = true
    · have hstep : placeDataStep T cw st p = st := by
        unfold placeDataStep
        rw [if_pos hres]
      rw [hstep, ih st hT]
      simp [hres]
    · rw [Bool.not_eq_true] at hres
      by_cases hlt : st.2 < T
      · have hstep : placeDataStep T cw st p =
            (st.1.write p.1 p.2 (streamBit cw st.2), st.2 + 1) := by
          unfold placeDataStep
          rw [hres]
          show (if st.2 < T then _ else _) = _
          rw [if_pos hlt]
          rfl
        rw [hstep, ih (st.1.write p.1 p.2 (streamBit cw st.2), st.2 + 1) (by omega)]
        have hpred : (fun q : Nat × Nat =>
            !(st.1.write p.1 p.2 (streamBit cw st.2)).isReserved q.1 q.2) =
            fun q : Nat × Nat => !st.1.isReserved q.1 q.2 := rfl
        rw [hpred]
        simp [hres]
        omega
      · have hstep : placeDataStep T cw st p =
            (st.1.write p.1 p.2 false, st.2) := by
          unfold placeDataStep
          rw [hres]
          show (if st.2 < T then _ else _) = _
          rw [if_neg hlt]
        rw [hstep, ih (st.1.write p.1 p.2 false, st.2) hT]
        have hpred : (fun q : Nat × Nat =>
            !(st.1.write p.1 p.2 false).isReserved q.1 q.2) =
            fun q : Nat × Nat => !st.1.isReserved q.1 q.2 := rfl
        rw [hpred]
        simp [hres]
        omega

theorem placeData_foldl_frame (T : Nat) (cw : List Nat) :
    ∀ (l : List (Nat × Nat)) (st : GridState × Nat) (r c : Nat),
      (∀ p ∈ l, bitAddr st.1.size p.1 p.2 ≠ bitAddr st.1.size r c) →
      (l.foldl (placeDataStep T cw) st).1.cell r c = st.1.cell r c := by
  intro l
  induction l with
  | nil => intro st r c _; rfl
  | cons p l ih =>
    intro st r c hne
    rw [List.foldl_cons]
    have hp := hne p (List.mem_cons_self p l)
    have hrest : ∀ q ∈ l,
        bitAddr (placeDataStep T cw st p).1.size q.1 q.2 =
          bitAddr st.1.size q.1 q.2 ∧
        bitAddr (placeDataStep T cw st p).1.size r c = bitAddr st.1.size r c := by
      intro q _
      rw [(placeDataStep_inv T cw st p).2]
      exact ⟨rfl, rfl⟩
    have h1 : (l.foldl (placeDataStep T cw) (placeDataStep T cw st p)).1.cell r c =
        (placeDataStep T cw st p).1.cell r c := by
      apply ih
      intro q hq
      rw [(placeDataStep_inv T cw st p).2]
      exact hne q (List.mem_cons_of_mem p hq)
    rw [h1]
    unfold placeDataStep
    split
    · rfl
    · split
      · exact cell_write_ne st.1 r c p.1 p.2 _ hp
      · exact cell_write_ne st.1 r c p.1 p.2 _ hp

/-- The `k`-th non-reserved cell of a visit list receives codeword-stream bit
`st.2 + k` (MSB-first) while bits remain, and light (`false`) afterwards. -/
theorem placeData_foldl_values (T : Nat) (cw : List Nat) :
    ∀ (l : List (Nat × Nat)) (st : GridState × Nat), st.2 ≤ T →
      (∀ p ∈ l, p.1 < st.1.size ∧ p.2 < st.1.size) → l.Nodup →
      ∀ k, k < (l.filter fun p => !st.1.isReserved p.1 p.2).length →
        ((l.foldl (placeDataStep T cw) st).1.cell
            ((l.filter fun p => !st.1.isReserved p.1 p.2).getD k (0, 0)).1
            ((l.filter fun p => !st.1.isReserved p.1 p.2).getD k (0, 0)).2) =
          some (if st.2 + k < T then streamBit cw (st.2 + k) else false) := by
  intro l
  induction l with
  | nil =>
    intro st _ _ _ k hk
    simp at hk
  | cons p l ih =>
    intro st hT hb hnd k hk
    rw [List.nodup_cons] at hnd
    by_cases hres : st.1.isReserved p.1 p.2 = true
    · have hfil : ((p :: l).filter fun q => !st.1.isReserved q.1 q.2) =
          l.filter fun q => !st.1.isReserved q.1 q.2 :=
        List.filter_cons_of_neg (by simp [hres])
      rw [hfil] at hk ⊢
      have hstep : placeDataStep T cw st p = st := by
        unfold placeDataStep
        rw [if_pos hres]
      rw [List.foldl_cons, hstep]
      exact ih st hT (fun q hq => hb q (List.mem_cons_of_mem p hq)) hnd.2 k hk
    · rw [Bool.not_eq_true] at hres
      have hfil : ((p :: l).filter fun q => !st.1.isReserved q.1 q.2) =
          p :: l.filter fun q => !st.1.isReserved q.1 q.2 :=
        List.filter_cons_of_pos (by simp [hres])
      rw [hfil] at hk ⊢
      have hne : ∀ q ∈ l, bitAddr st.1.size q.1 q.2 ≠ bitAddr st.1.size p.1 p.2 := by
        intro q hq haddr
        have hqb := hb q (List.mem_cons_of_mem p hq)
        have hpb := hb p (List.mem_cons_self p l)
        obtain ⟨h1, h2⟩ := bitAddr_inj st.1.size q.1 q.2 p.1 p.2 hqb.2 hpb.2 haddr
        have hqp : q = p := by
          rcases q with ⟨a, b⟩
          rcases p with ⟨a2, b2⟩
          simp_all
        exact hnd.1 (hqp ▸ hq)
      by_cases hlt : st.2 < T
      · have hstep : placeDataStep T cw st p =
            (st.1.write p.1 p.2 (streamBit cw st.2), st.2 + 1) := by
          unfold placeDataStep
          rw [hres]
          show (if st.2 < T then _ else _) = _
          rw [if_pos hlt]
          rfl
        rw [List.foldl_cons, hstep]
        cases k with
        | zero =>
          show (l.foldl (placeDataStep T cw)
              (st.1.write p.1 p.2 (streamBit cw st.2), st.2 + 1)).1.cell p.1 p.2 = _
          have hframe := placeData_foldl_frame T cw l
            (st.1.write p.1 p.2 (streamBit cw st.2), st.2 + 1) p.1 p.2
            (by intro q hq; exact hne q hq)
          rw [hframe]
          show (st.1.write p.1 p.2 (streamBit cw st.2)).cell p.1 p.2 = _
          rw [cell_write_self]
          rw [Nat.add_zero, if_pos hlt]
        | succ j =>
          have hpred : (fun q : Nat × Nat =>
              !(st.1.write p.1 p.2 (streamBit cw st.2)).isReserved q.1 q.2) =
              fun q : Nat × Nat => !st.1.isReserved q.1 q.2 := rfl
          have hk' : j < (l.filter fun q => !st.1.isReserved q.1 q.2).length := by
            simpa using Nat.lt_of_succ_lt_succ hk
          have := ih (st.1.write p.1 p.2 (streamBit cw st.2), st.2 + 1)
            (by omega) (fun q hq => hb q (List.mem_cons_of_mem p hq)) hnd.2 j
          rw [hpred] at this
          have heq := this hk'
          show (l.foldl (placeDataStep T cw)
              (st.1.write p.1 p.2 (streamBit cw st.2), st.2 + 1)).1.cell
              ((l.filter fun q => !st.1.isReserved q.1 q.2).getD j (0, 0)).1
              ((l.filter fun q => !st.1.isReserved q.1 q.2).getD j (0, 0)).2 = _
          rw [heq]
          have harith : st.2 + 1 + j = st.2 + (j + 1) := by omega
          rw [harith]
      · have hstep : placeDataStep T cw st p = (st.1.write p.1 p.2 false, st.2) := by
          unfold placeDataStep
          rw [hres]
          show (if st.2 < T then _ else _) = _
          rw [if_neg hlt]
        rw [List.foldl_cons, hstep]
        cases k with
        | zero =>
          show (l.foldl (placeDataStep T cw)
              (st.1.write p.1 p.2 false, st.2)).1.cell p.1 p.2 = _
          have hframe := placeData_foldl_frame T cw l
            (st.1.write p.1 p.2 false, st.2) p.1 p.2
            (by intro q hq; exact hne q hq)
          rw [hframe]
          show (st.1.write p.1 p.2 false).cell p.1 p.2 = _
          rw [cell_write_self]
          rw [Nat.add_zero, if_neg hlt]
        | succ j =>
          have hpred : (fun q : Nat × Nat =>
              !(st.1.write p.1 p.2 false).isReserved q.1 q.2) =
              fun q : Nat × Nat => !st.1.isReserved q.1 q.2 := rfl
          have hk' : j < (l.filter fun q => !st.1.isReserved q.1 q.2).length := by
            simpa using Nat.lt_of_succ_lt_succ hk
          have := ih (st.1.write p.1 p.2 false, st.2)
            hT (fun q hq => hb q (List.mem_cons_of_mem p hq)) hnd.2 j
          rw [hpred] at this
          have heq := this hk'
          show (l.foldl (placeDataStep T cw)
              (st.1.write p.1 p.2 false, st.2)).1.cell
              ((l.filter fun q => !st.1.isReserved q.1 q.2).getD j (0, 0)).1
              ((l.filter fun q => !st.1.isReserved q.1 q.2).getD j (0, 0)).2 = _
          rw [heq]
          have hc1 : ¬ st.2 + j < T := by omega
          have hc2 : ¬ st.2 + (j + 1) < T := by omega
          rw [if_neg hc1, if_neg hc2]

/-- Address-level characterization of the assigned bits after a visit fold:
exactly the previously assigned bits plus the non-reserved visited cells. -/
theorem placeData_foldl_assigned (T : Nat) (cw : List Nat) :
    ∀ (l : List (Nat × Nat)) (st : GridState × Nat) (j : Nat),
      ((l.foldl (placeDataStep T cw) st).1.assigned.testBit j = true ↔
        (st.1.assigned.testBit j = true ∨
          ∃ p ∈ l, st.1.isReserved p.1 p.2 = false ∧
            j = bitAddr st.1.size p.1 p.2)) := by
  intro l
  induction l with
  | nil =>
    intro st j
    simp
  | cons p l ih =>
    intro st j
    rw [List.foldl_cons]
    by_cases hres : st.1.isReserved p.1 p.2 = true
    · have hstep : placeDataStep T cw st p = st := by
        unfold placeDataStep
        rw [if_pos hres]
      rw [hstep, ih st j]
      constructor
      · rintro (h | ⟨q, hq, hqr, hqa⟩)
        · exact Or.inl h
        · exact Or.inr ⟨q, List.mem_cons_of_mem p hq, hqr, hqa⟩
      · rintro (h | ⟨q, hq, hqr, hqa⟩)
        · exact Or.inl h
        · rcases List.mem_cons.mp hq with rfl | hq'
          · rw [hres] at hqr
            cases hqr
          · exact Or.inr ⟨q, hq', hqr, hqa⟩
    · rw [Bool.not_eq_true] at hres
      have hkey : ∀ (b : Bool),
          ((l.foldl (placeDataStep T cw)
            (st.1.write p.1 p.2 b, st.2 + (if st.2 < T then 1 else 0))).1.assigned.testBit j
              = true ↔
            (st.1.assigned.testBit j = true ∨
              ∃ q ∈ p :: l, st.1.isReserved q.1 q.2 = false ∧
                j = bitAddr st.1.size q.1 q.2)) := by
        intro b
        rw [ih (st.1.write p.1 p.2 b, st.2 + (if st.2 < T then 1 else 0)) j]
        have ha : (st.1.write p.1 p.2 b).assigned.testBit j =
            (st.1.assigned.testBit j || decide (bitAddr st.1.size p.1 p.2 = j)) :=
          testBit_setBit _ _ _
        constructor
        · rintro (h | ⟨q, hq, hqr, hqa⟩)
          · rw [ha] at h
            rcases Bool.or_eq_true_iff.mp h with h' | h'
            · exact Or.inl h'
            · exact Or.inr ⟨p, List.mem_cons_self p l, hres, (of_decide_eq_true h').symm⟩
          · exact Or.inr ⟨q, List.mem_cons_of_mem p hq, hqr, hqa⟩
        · rintro (h | ⟨q, hq, hqr, hqa⟩)
          · refine Or.inl ?_
            rw [ha, h]
            rfl
          · rcases List.mem_cons.mp hq with rfl | hq'
            · refine Or.inl ?_
              rw [ha, hqa]
              simp
            · exact Or.inr ⟨q, hq', hqr, hqa⟩
      by_cases hlt : st.2 < T
      · have hstep : placeDataStep T cw st p =
            (st.1.write p.1 p.2 (streamBit cw st.2), st.2 + 1) := by
          unfold placeDataStep
          rw [hres]
          show (if st.2 < T then _ else _) = _
          rw [if_pos hlt]
          rfl
        rw [hstep]
        have := hkey (streamBit cw st.2)
        rw [if_pos hlt] at this
        exact this
      · have hstep : placeDataStep T cw st p = (st.1.write p.1 p.2 false, st.2) := by
          unfold placeDataStep
          rw [hres]
          show (if st.2 < T then _ else _) = _
          rw [if_neg hlt]
        rw [hstep]
        have := hkey false
        rw [if_neg hlt] at this
        rw [Nat.add_zero] at this
        exact this

/-! ## Traversal structure -/

set_option maxRecDepth 40000 in
theorem colSeq_closed : ∀ v, v < 41 → colSeq (v * 4 + 17) = colSeqClosed v := by
  decide

theorem mem_colSeqClosed (v x : Nat) :
    x ∈ colSeqClosed v ↔
      ((8 ≤ x ∧ x ≤ 4 * v + 16 ∧ x % 2 = 0) ∨ x = 5 ∨ x = 3 ∨ x = 1) := by
  unfold colSeqClosed
  rw [List.mem_append, List.mem_map]
  constructor
  · rintro (⟨k, hk, rfl⟩ | h)
    · rw [List.mem_range] at hk
      left
      omega
    · right
      simpa using h
  · rintro (⟨h8, hle, hpar⟩ | rfl | rfl | rfl)
    · refine Or.inl ⟨(4 * v + 16 - x) / 2, ?_, ?_⟩
      · rw [List.mem_range]
        omega
      · omega
    · right; simp
    · right; simp
    · right; simp

theorem colSeqClosed_bounds (v x : Nat) (hx : x ∈ colSeqClosed v) :
    1 ≤ x ∧ x ≤ 4 * v + 16 := by
  rcases (mem_colSeqClosed v x).mp hx with ⟨h1, h2, _⟩ | rfl | rfl | rfl <;> omega

theorem colSeqClosed_pairwise (v : Nat) :
    (colSeqClosed v).Pairwise fun a b => b + 2 ≤ a := by
  unfold colSeqClosed
  rw [List.pairwise_append]
  refine ⟨?_, by decide, ?_⟩
  · rw [List.pairwise_map]
    refine List.Pairwise.imp_of_mem ?_ (List.pairwise_lt_range (2 * v + 5))
    intro a b ha hb hab
    rw [List.mem_range] at ha hb
    omega
  · intro a ha b hb
    rw [List.mem_map] at ha
    obtain ⟨k, hk, rfl⟩ := ha
    rw [List.mem_range] at hk
    have hb' : b = 5 ∨ b = 3 ∨ b = 1 := by simpa using hb
    rcases hb' with rfl | rfl | rfl <;> omega

theorem filter01 (col : Nat) (hcol : 1 ≤ col) :
    ([0, 1].filter fun c0 => decide (c0 ≤ col)) = [0, 1] := by
  simp [List.filter, hcol]

theorem mem_visitColCells (s col : Nat) (hcol : 1 ≤ col) (r c : Nat) :
    (r, c) ∈ visitColCells s col ↔ r < s ∧ (c = col ∨ c = col - 1) := by
  unfold visitColCells
  rw [List.mem_flatMap]
  by_cases hup : isUpwardSrc s col = true
  · constructor
    · rintro ⟨row, hrow, hm⟩
      rw [List.mem_range] at hrow
      rw [filter01 col hcol, List.mem_map] at hm
      obtain ⟨c0, hc0, hpair⟩ := hm
      have hc0' : c0 = 0 ∨ c0 = 1 := by simpa using hc0
      rw [if_pos hup, Prod.mk.injEq] at hpair
      obtain ⟨h1, h2⟩ := hpair
      rcases hc0' with rfl | rfl <;> omega
    · rintro ⟨hr, hc⟩
      refine ⟨s - 1 - r, by rw [List.mem_range]; omega, ?_⟩
      rw [filter01 col hcol, List.mem_map]
      rcases hc with rfl | rfl
      · refine ⟨0, by simp, ?_⟩
        rw [if_pos hup, Prod.mk.injEq]
        omega
      · refine ⟨1, by simp, ?_⟩
        rw [if_pos hup, Prod.mk.injEq]
        omega
  · constructor
    · rintro ⟨row, hrow, hm⟩
      rw [List.mem_range] at hrow
      rw [filter01 col hcol, List.mem_map] at hm
      obtain ⟨c0, hc0, hpair⟩ := hm
      have hc0' : c0 = 0 ∨ c0 = 1 := by simpa using hc0
      rw [if_neg hup, Prod.mk.injEq] at hpair
      obtain ⟨h1, h2⟩ := hpair
      rcases hc0' with rfl | rfl <;> omega
    · rintro ⟨hr, hc⟩
      refine ⟨r, by rw [List.mem_range]; omega, ?_⟩
      rw [filter01 col hcol, List.mem_map]
      rcases hc with rfl | rfl
      · refine ⟨0, by simp, ?_⟩
        rw [if_neg hup, Prod.mk.injEq]
        omega
      · refine ⟨1, by simp, ?_⟩
        rw [if_neg hup, Prod.mk.injEq]
        omega

theorem visitColCells_nodup (s col : Nat) (hcol : 1 ≤ col) :
    (visitColCells s col).Nodup := by
  unfold visitColCells
  rw [List.nodup_flatMap]
  constructor
  · intro row hrow
    rw [filter01 col hcol]
    have hne : col ≠ col - 1 := by omega
    by_cases hup : isUpwardSrc s col = true <;>
      simp [hup, List.nodup_cons, hne]
  · refine List.Pairwise.imp_of_mem ?_ (List.pairwise_lt_range s)
    intro a b ha hb hab
    rw [List.mem_range] at ha hb
    intro x hxa hxb
    rw [filter01 col hcol, List.mem_map] at hxa hxb
    obtain ⟨c0, _, hpa⟩ := hxa
    obtain ⟨c1, _, hpb⟩ := hxb
    rw [← hpb, Prod.mk.injEq] at hpa
    obtain ⟨h1, _⟩ := hpa
    cases hup : isUpwardSrc s col <;> simp [hup] at h1 <;> omega

theorem mem_visitSeq (v : Nat) (h40 : v < 41) (r c : Nat) :
    (r, c) ∈ visitSeq (v * 4 + 17) ↔
      r < v * 4 + 17 ∧ c < v * 4 + 17 ∧ c ≠ 6 := by
  unfold visitSeq
  rw [colSeq_closed v h40, List.mem_flatMap]
  constructor
  · rintro ⟨col, hcol, hm⟩
    have hb := colSeqClosed_bounds v col hcol
    rw [mem_visitColCells _ _ hb.1] at hm
    obtain ⟨hr, hc⟩ := hm
    refine ⟨hr, ?_, ?_⟩
    · rcases hc with rfl | rfl <;> omega
    · rcases (mem_colSeqClosed v col).mp hcol with ⟨h8, _, hpar⟩ | rfl | rfl | rfl <;>
        rcases hc with rfl | rfl <;> omega
  · rintro ⟨hr, hc, hc6⟩
    by_cases h7 : 7 ≤ c
    · refine ⟨if c % 2 = 1 then c + 1 else c, ?_, ?_⟩
      · rw [mem_colSeqClosed]
        left
        split <;> omega
      · rw [mem_visitColCells _ _ (by split <;> omega)]
        refine ⟨hr, ?_⟩
        split <;> omega
    · have hc5 : c ≤ 5 := by omega
      interval_cases c
      · exact ⟨1, by rw [mem_colSeqClosed]; omega,
          by rw [mem_visitColCells _ 1 (by omega)]; exact ⟨hr, by omega⟩⟩
      · exact ⟨1, by rw [mem_colSeqClosed]; omega,
          by rw [mem_visitColCells _ 1 (by omega)]; exact ⟨hr, by omega⟩⟩
      · exact ⟨3, by rw [mem_colSeqClosed]; omega,
          by rw [mem_visitColCells _ 3 (by omega)]; exact ⟨hr, by omega⟩⟩
      · exact ⟨3, by rw [mem_colSeqClosed]; omega,
          by rw [mem_visitColCells _ 3 (by omega)]; exact ⟨hr, by omega⟩⟩
      · exact ⟨5, by rw [mem_colSeqClosed]; omega,
          by rw [mem_visitColCells _ 5 (by omega)]; exact ⟨hr, by omega⟩⟩
      · exact ⟨5, by rw [mem_colSeqClosed]; omega,
          by rw [mem_visitColCells _ 5 (by omega)]; exact ⟨hr, by omega⟩⟩

theorem visitSeq_nodup (v : Nat) (h40 : v < 41) : (visitSeq (v * 4 + 17)).Nodup := by
  unfold visitSeq
  rw [colSeq_closed v h40, List.nodup_flatMap]
  constructor
  · intro col hcol
    exact visitColCells_nodup _ col (colSeqClosed_bounds v col hcol).1
  · refine List.Pairwise.imp_of_mem ?_ (colSeqClosed_pairwise v)
    intro a b ha hb hab
    intro x hxa hxb
    rcases x with ⟨r, c⟩
    rw [mem_visitColCells _ _ (colSeqClosed_bounds v a ha).1] at hxa
    rw [mem_visitColCells _ _ (colSeqClosed_bounds v b hb).1] at hxb
    have h1b := (colSeqClosed_bounds v b hb).1
    obtain ⟨_, hca⟩ := hxa
    obtain ⟨_, hcb⟩ := hxb
    rcases hca with rfl | rfl <;> rcases hcb with h2 | h2 <;> omega

set_option maxRecDepth 40000 in
theorem dirSeq_closed : ∀ v, v < 41 →
    dirSeq (v * 4 + 17) =
      ((List.range (2 * v + 5)).map fun k => k % 2 == 0) ++ [true, false, true] := by
  decide

/-! ## Column 6 is fully reserved -/

theorem baseResMask_eq (v : Nat) :
    baseResMask v =
      setBit
        ((centerPairs v).foldl (alignStepM (v * 4 + 17))
          ((finderAddrs (v * 4 + 17) 0 0).foldl setBit 0 |||
            (finderAddrs (v * 4 + 17) (((v * 4 + 17 : Nat) : Int) - 7) 0).foldl setBit 0 |||
            (finderAddrs (v * 4 + 17) 0 (((v * 4 + 17 : Nat) : Int) - 7)).foldl setBit 0) |||
          ((List.range' 8 (v * 4 + 17 - 16)).map fun i =>
            bitAddr (v * 4 + 17) 6 i).foldl setBit 0 |||
          ((List.range' 8 (v * 4 + 17 - 16)).map fun i =>
            bitAddr (v * 4 + 17) i 6).foldl setBit 0)
        (bitAddr (v * 4 + 17) (v * 4 + 17 - 8) 8) |||
      (formatAddrs (v * 4 + 17)).foldl setBit 0 |||
      (versionAddrs (v * 4 + 17) v).foldl setBit 0 := rfl

theorem alignStepM_mono (s m : Nat) (rc : Nat × Nat) (j : Nat)
    (h : m.testBit j = true) : (alignStepM s m rc).testBit j = true := by
  unfold alignStepM
  split
  · exact h
  · split
    · exact h
    · rw [Nat.testBit_lor, h]
      rfl

theorem foldl_alignStepM_mono (s : Nat) (l : List (Nat × Nat)) :
    ∀ m j, m.testBit j = true → (l.foldl (alignStepM s) m).testBit j = true := by
  induction l with
  | nil => intro m j h; exact h
  | cons rc l ih => intro m j h; exact ih _ j (alignStepM_mono s m rc j h)

theorem or_absorb_left (a b : Bool) (h : a = true) : (a || b) = true := by
  rw [h]
  rfl

theorem or_absorb_right (a b : Bool) (h : b = true) : (a || b) = true := by
  rw [h]
  exact Bool.or_true a

theorem finderAddrOf_in (s : Nat) (row col : Int) (a b gr gc : Nat)
    (hgr : row + ((a : Int) - 1) = (gr : Int))
    (hgc : col + ((b : Int) - 1) = (gc : Int))
    (hgrs : gr < s) (hgcs : gc < s) :
    finderAddrOf s row col (a, b) = some (bitAddr s gr gc) := by
  show (if oob s (row + ((a : Int) - 1)) (col + ((b : Int) - 1)) then none
    else some (bitAddr s (row + ((a : Int) - 1)).toNat
      (col + ((b : Int) - 1)).toNat)) = some (bitAddr s gr gc)
  have hoob : ¬ oob s (gr : Int) (gc : Int) := by
    unfold oob
    omega
  rw [hgr, hgc, if_neg hoob]
  rfl

theorem col6_reserved (v : Nat) (h1 : 1 ≤ v) (r : Nat)
    (hr : r < v * 4 + 17) :
    (baseResMask v).testBit (bitAddr (v * 4 + 17) r 6) = true := by
  rw [baseResMask_eq, Nat.testBit_lor, Nat.testBit_lor]
  apply or_absorb_left
  apply or_absorb_left
  rw [testBit_setBit]
  apply or_absorb_left
  rw [Nat.testBit_lor, Nat.testBit_lor]
  by_cases hmid : 8 ≤ r ∧ r < v * 4 + 17 - 8
  · -- the vertical timing strip covers rows 8 .. size - 9
    apply or_absorb_right
    rw [testBit_foldl_setBit]
    apply or_absorb_right
    apply decide_eq_true
    rw [List.mem_map]
    refine ⟨r, ?_, rfl⟩
    rw [List.mem_range'_1]
    omega
  · -- a finder box covers the rest of the column
    apply or_absorb_left
    apply or_absorb_left
    apply foldl_alignStepM_mono
    rw [Nat.testBit_lor, Nat.testBit_lor]
    by_cases htop : r < 8
    · -- top-left finder, loop indices (r + 1, 7)
      apply or_absorb_left
      apply or_absorb_left
      rw [testBit_foldl_setBit]
      apply or_absorb_right
      apply decide_eq_true
      unfold finderAddrs
      rw [List.mem_filterMap]
      refine ⟨(r + 1, 7), ?_, ?_⟩
      · rw [mem_gridPairs]
        exact ⟨by omega, by omega⟩
      · exact finderAddrOf_in (v * 4 + 17) 0 0 (r + 1) 7 r 6
          (by omega) (by omega) (by omega) (by omega)
    · -- bottom-left finder, loop indices (r - (size - 8), 7)
      apply or_absorb_left
      apply or_absorb_right
      rw [testBit_foldl_setBit]
      apply or_absorb_right
      apply decide_eq_true
      unfold finderAddrs
      rw [List.mem_filterMap]
      refine ⟨(r - (v * 4 + 17 - 8), 7), ?_, ?_⟩
      · rw [mem_gridPairs]
        exact ⟨by omega, by omega⟩
      · exact finderAddrOf_in (v * 4 + 17) (((v * 4 + 17 : Nat) : Int) - 7) 0
          (r - (v * 4 + 17 - 8)) 7 r 6 (by omega) (by omega) (by omega) (by omega)

/-! ## Free cells are all visited -/

theorem gridPairs_nodup (a s : Nat) : (gridPairs a s).Nodup := by
  have h : ((gridPairs a s).map fun rc => bitAddr s rc.1 rc.2).Nodup := by
    rw [gridPairs_map_addr]
    exact List.nodup_range (a * s)
  exact h.of_map _

theorem length_le_of_nodup_subset {α : Type} [DecidableEq α] (l1 l2 : List α)
    (hnd : l1.Nodup) (hsub : ∀ x ∈ l1, x ∈ l2) : l1.length ≤ l2.length := by
  have h1 : l1.toFinset.card = l1.length := List.toFinset_card_of_nodup hnd
  have h2 : l1.toFinset ⊆ l2.toFinset := by
    intro x hx
    rw [List.mem_toFinset] at hx ⊢
    exact hsub x hx
  calc l1.length = l1.toFinset.card := h1.symm
    _ ≤ l2.toFinset.card := Finset.card_le_card h2
    _ ≤ l2.length := List.toFinset_card_le l2

theorem freeCount_le_visits (v : Nat) (h1 : 1 ≤ v) (h40 : v < 41) :
    freeCellCount v ≤
      (visitSeq (v * 4 + 17)).countP fun p =>
        !(baseResMask v).testBit (bitAddr (v * 4 + 17) p.1 p.2) := by
  rw [freeCellCount_eq, List.countP_eq_length_filter, List.countP_eq_length_filter]
  apply length_le_of_nodup_subset
  · exact (gridPairs_nodup _ _).filter _
  · intro x hx
    rw [List.mem_filter] at hx ⊢
    obtain ⟨hmem, hfree⟩ := hx
    rw [mem_gridPairs] at hmem
    refine ⟨?_, hfree⟩
    rcases x with ⟨r, c⟩
    rw [mem_visitSeq v h40]
    refine ⟨hmem.1, hmem.2, ?_⟩
    intro hc6
    subst hc6
    rw [col6_reserved v h1 r hmem.1] at hfree
    simp at hfree

/-! ## Every version's codewords fit in its free cells -/

set_option maxRecDepth 200000 in
set_option maxHeartbeats 8000000 in
theorem fits_all :
    ((List.range 40).all fun i =>
      Nat.ble (8 * getTotalCodewords (i + 1)) (freeCellCount (i + 1))) = true := rfl

theorem fits (v : Nat) (h1 : 1 ≤ v) (h40 : v ≤ 40) :
    8 * getTotalCodewords v ≤ freeCellCount v := by
  have h := fits_all
  rw [List.all_eq_true] at h
  have hm := h (v - 1) (by rw [List.mem_range]; omega)
  simp only [Nat.ble_eq] at hm
  have he : v - 1 + 1 = v := by omega
  rw [he] at hm
  exact hm

/-! ## `placeData` on the built base grid -/

theorem placeData_bits (v : Nat) (h1 : 1 ≤ v) (h40 : v ≤ 40) (cw : List Nat)
    (hlen : cw.length = getTotalCodewords v) :
    (placeData (buildBase v) cw).2 = 8 * getTotalCodewords v := by
  unfold placeData
  obtain ⟨hres, hsize⟩ := buildBase_fields v h40
  rw [hsize]
  rw [placeData_foldl_count (cw.length * 8) cw (visitSeq (v * 4 + 17)) (buildBase v, 0)
    (Nat.zero_le _)]
  have hpred : (fun p : Nat × Nat => !(buildBase v, (0 : Nat)).1.isReserved p.1 p.2) =
      fun p : Nat × Nat => !(baseResMask v).testBit (bitAddr (v * 4 + 17) p.1 p.2) := by
    funext p
    show (!(buildBase v).reserved.testBit (bitAddr (buildBase v).size p.1 p.2)) =
      !(baseResMask v).testBit (bitAddr (v * 4 + 17) p.1 p.2)
    rw [hres, hsize]
  rw [hpred]
  have hfv := freeCount_le_visits v h1 (by omega)
  have hfits := fits v h1 h40
  rw [hlen]
  omega

theorem placeData_values (v : Nat) (h1 : 1 ≤ v) (h40 : v ≤ 40) (cw : List Nat) :
    ∀ k, k < ((visitSeq (v * 4 + 17)).filter fun p =>
        !(buildBase v).isReserved p.1 p.2).length →
      (placeData (buildBase v) cw).1.cell
          (((visitSeq (v * 4 + 17)).filter fun p =>
            !(buildBase v).isReserved p.1 p.2).getD k (0, 0)).1
          (((visitSeq (v * 4 + 17)).filter fun p =>
            !(buildBase v).isReserved p.1 p.2).getD k (0, 0)).2 =
        some (if k < cw.length * 8 then streamBit cw k else false) := by
  intro k hk
  obtain ⟨hres, hsize⟩ := buildBase_fields v h40
  have hpred : (fun p : Nat × Nat => !(buildBase v, (0 : Nat)).1.isReserved p.1 p.2) =
      fun p : Nat × Nat => !(buildBase v).isReserved p.1 p.2 := rfl
  have hb : ∀ p ∈ visitSeq (v * 4 + 17),
      p.1 < (buildBase v, (0 : Nat)).1.size ∧ p.2 < (buildBase v, (0 : Nat)).1.size := by
    intro p hp
    rcases p with ⟨r, c⟩
    rw [mem_visitSeq v (by omega)] at hp
    show r < (buildBase v).size ∧ c < (buildBase v).size
    rw [hsize]
    exact ⟨hp.1, hp.2.1⟩
  have hval := placeData_foldl_values (cw.length * 8) cw (visitSeq (v * 4 + 17))
    (buildBase v, 0) (Nat.zero_le _) hb (visitSeq_nodup v (by omega)) k
  rw [hpred] at hval
  have hval' := hval hk
  unfold placeData
  rw [hsize]
  rw [hval']
  rw [Nat.zero_add]

/-! ## Assigned bits through the later pipeline stages -/

theorem testBit_setBit_self (n i : Nat) : (setBit n i).testBit i = true := by
  rw [testBit_setBit]
  simp

theorem write_assigned_mono (g : GridState) (r c : Nat) (b : Bool) (j : Nat)
    (h : g.assigned.testBit j = true) : (g.write r c b).assigned.testBit j = true := by
  rw [write_assigned, testBit_setBit, h]
  rfl

theorem flip_assigned_mono (g : GridState) (r c j : Nat)
    (h : g.assigned.testBit j = true) : (g.flip r c).assigned.testBit j = true := by
  rw [flip_assigned, testBit_setBit, h]
  rfl

theorem applyMask_mono (g : GridState) (m j : Nat) (h : g.assigned.testBit j = true) :
    (applyMask g m).assigned.testBit j = true ∧ (applyMask g m).size = g.size := by
  unfold applyMask
  apply foldl_preserves (fun g' => g'.assigned.testBit j = true ∧ g'.size = g.size)
  · intro g' r hg'
    apply foldl_preserves (fun g'' => g''.assigned.testBit j = true ∧ g''.size = g.size)
    · intro g'' c hg''
      split
      · exact hg''
      · split
        · exact ⟨flip_assigned_mono _ _ _ _ hg''.1, (flip_size _ _ _).trans hg''.2⟩
        · exact hg''
    · exact hg'
  · exact ⟨h, rfl⟩

/-- A fold of per-index cell writers assigns the address of every index it
visits, provided each step writes its own address, is monotone on assigned
bits, and preserves the grid size. -/
theorem foldl_writer_sets (step : GridState → Nat → GridState) (A : Nat → Nat → Nat)
    (hm : ∀ g i j, g.assigned.testBit j = true → (step g i).assigned.testBit j = true)
    (hs : ∀ g i, (step g i).size = g.size)
    (hset : ∀ g i, (step g i).assigned.testBit (A g.size i) = true) :
    ∀ (l : List Nat) (g : GridState) (i0 : Nat), i0 ∈ l →
      (l.foldl step g).assigned.testBit (A g.size i0) = true := by
  intro l
  induction l with
  | nil =>
    intro g i0 h0
    cases h0
  | cons a l ih =>
    intro g i0 h0
    rw [List.foldl_cons]
    rcases List.mem_cons.mp h0 with rfl | h0'
    · have hset' := hset g i0
      have := foldl_preserves (fun g' => g'.assigned.testBit (A g.size i0) = true)
        step (fun g' x hg' => hm g' x _ hg') l (step g i0) hset'
      exact this
    · have := ih (step g a) i0 h0'
      rw [hs g a] at this
      exact this

theorem foldl_writer_mono (step : GridState → Nat → GridState)
    (hm : ∀ g i j, g.assigned.testBit j = true → (step g i).assigned.testBit j = true) :
    ∀ (l : List Nat) (g : GridState) (j : Nat), g.assigned.testBit j = true →
      (l.foldl step g).assigned.testBit j = true := by
  intro l g j h
  exact foldl_preserves (fun g' => g'.assigned.testBit j = true)
    step (fun g' x hg' => hm g' x _ hg') l g h

theorem foldl_writer_size (step : GridState → Nat → GridState)
    (hs : ∀ g i, (step g i).size = g.size) :
    ∀ (l : List Nat) (g : GridState), (l.foldl step g).size = g.size := by
  intro l
  induction l with
  | nil => intro g; rfl
  | cons a l ih =>
    intro g
    rw [List.foldl_cons, ih (step g a), hs g a]

theorem placeFormatInfo_mono (g : GridState) (mask j : Nat)
    (h : g.assigned.testBit j = true) :
    (placeFormatInfo g mask).assigned.testBit j = true ∧
      (placeFormatInfo g mask).size = g.size := by
  unfold placeFormatInfo
  constructor
  · apply foldl_writer_mono
    · intro g' i j' h'
      exact write_assigned_mono g' _ _ _ j' h'
    · apply foldl_writer_mono
      · intro g' i j' h'
        exact write_assigned_mono g' _ _ _ j' h'
      · exact h
  · rw [foldl_writer_size _ (fun g' i => write_size g' _ _ _),
      foldl_writer_size _ (fun g' i => write_size g' _ _ _)]

theorem placeVersionInfo_mono (g : GridState) (version j : Nat)
    (h : g.assigned.testBit j = true) :
    (placeVersionInfo g version).assigned.testBit j = true ∧
      (placeVersionInfo g version).size = g.size := by
  unfold placeVersionInfo
  split
  · exact ⟨h, rfl⟩
  · constructor
    · apply foldl_writer_mono
      · intro g' i j' h'
        exact write_assigned_mono _ _ _ _ j' (write_assigned_mono g' _ _ _ j' h')
      · exact h
    · show ((List.range 18).foldl (fun g' i =>
        (g'.write (i / 3) (g'.size - 11 + i % 3) ((getVersionInfo version).testBit i)).write
          (g'.size - 11 + i % 3) (i / 3) ((getVersionInfo version).testBit i)) g).size = g.size
      exact foldl_writer_size _ (fun g' i =>
        (write_size _ _ _ _).trans (write_size g' _ _ _)) _ _

/-- The format-information pass assigns every cell it targets. -/
theorem placeFormatInfo_sets (g : GridState) (mask : Nat) (p : Nat × Nat)
    (hp : p ∈ hBitsPos ++ vBitsPos g.size) :
    (placeFormatInfo g mask).assigned.testBit (bitAddr g.size p.1 p.2) = true := by
  rw [List.mem_append] at hp
  unfold placeFormatInfo
  rcases hp with hp | hp
  · -- written by the first loop, preserved by the second
    have hidx : ∃ i, i ∈ List.range 15 ∧ hBitsPos.getD i (0, 0) = p := by
      have hh : ∀ q ∈ hBitsPos, ∃ i, i ∈ List.range 15 ∧ hBitsPos.getD i (0, 0) = q := by
        decide
      exact hh p hp
    obtain ⟨i, hi, hig⟩ := hidx
    have h1 : ((List.range 15).foldl (fun g' i =>
        g'.write (hBitsPos.getD i (0, 0)).1 (hBitsPos.getD i (0, 0)).2
          ((FORMAT_INFO.getD mask 0).testBit (14 - i))) g).assigned.testBit
          (bitAddr g.size (hBitsPos.getD i (0, 0)).1 (hBitsPos.getD i (0, 0)).2) = true :=
      foldl_writer_sets
        (fun g' i => g'.write (hBitsPos.getD i (0, 0)).1 (hBitsPos.getD i (0, 0)).2
          ((FORMAT_INFO.getD mask 0).testBit (14 - i)))
        (fun s i => bitAddr s (hBitsPos.getD i (0, 0)).1 (hBitsPos.getD i (0, 0)).2)
        (fun g' i j h => write_assigned_mono g' _ _ _ j h)
        (fun g' i => write_size g' _ _ _)
        (fun g' i => by
          rw [write_assigned]
          exact testBit_setBit_self _ _)
        (List.range 15) g i hi
    rw [hig] at h1
    apply foldl_writer_mono
    · intro g' i' j' h'
      exact write_assigned_mono g' _ _ _ j' h'
    · exact h1
  · -- written by the second loop
    have hsz : ((List.range 15).foldl (fun g' i =>
        g'.write (hBitsPos.getD i (0, 0)).1 (hBitsPos.getD i (0, 0)).2
          ((FORMAT_INFO.getD mask 0).testBit (14 - i))) g).size = g.size :=
      foldl_writer_size _ (fun g' i => write_size g' _ _ _) _ _
    have hidx : ∃ i, i ∈ List.range 15 ∧ (vBitsPos g.size).getD i (0, 0) = p := by
      have hv : ∀ s : Nat, ∀ q ∈ vBitsPos s,
          ∃ i, i ∈ List.range 15 ∧ (vBitsPos s).getD i (0, 0) = q := by
        intro s q hq
        unfold vBitsPos at hq
        rcases List.mem_cons.mp hq with rfl | hq
        · exact ⟨0, by decide, rfl⟩
        · rcases List.mem_cons.mp hq with rfl | hq
          · exact ⟨1, by decide, rfl⟩
          · rcases List.mem_cons.mp hq with rfl | hq
            · exact ⟨2, by decide, rfl⟩
            · rcases List.mem_cons.mp hq with rfl | hq
              · exact ⟨3, by decide, rfl⟩
              · rcases List.mem_cons.mp hq with rfl | hq
                · exact ⟨4, by decide, rfl⟩
                · rcases List.mem_cons.mp hq with rfl | hq
                  · exact ⟨5, by decide, rfl⟩
                  · rcases List.mem_cons.mp hq with rfl | hq
                    · exact ⟨6, by decide, rfl⟩
                    · rcases List.mem_cons.mp hq with rfl | hq
                      · exact ⟨7, by decide, rfl⟩
                      · rcases List.mem_cons.mp hq with rfl | hq
                        · exact ⟨8, by decide, rfl⟩
                        · rcases List.mem_cons.mp hq with rfl | hq
                          · exact ⟨9, by decide, rfl⟩
                          · rcases List.mem_cons.mp hq with rfl | hq
                            · exact ⟨10, by decide, rfl⟩
                            · rcases List.mem_cons.mp hq with rfl | hq
                              · exact ⟨11, by decide, rfl⟩
                              · rcases List.mem_cons.mp hq with rfl | hq
                                · exact ⟨12, by decide, rfl⟩
                                · rcases List.mem_cons.mp hq with rfl | hq
                                  · exact ⟨13, by decide, rfl⟩
                                  · rcases List.mem_cons.mp hq with rfl | hq
                                    · exact ⟨14, by decide, rfl⟩
                                    · cases hq
      exact hv g.size p hp
    obtain ⟨i, hi, hig⟩ := hidx
    have h2 : ((List.range 15).foldl (fun g' i =>
        g'.write ((vBitsPos g'.size).getD i (0, 0)).1 ((vBitsPos g'.size).getD i (0, 0)).2
          ((FORMAT_INFO.getD mask 0).testBit (14 - i)))
        ((List.range 15).foldl (fun g' i =>
          g'.write (hBitsPos.getD i (0, 0)).1 (hBitsPos.getD i (0, 0)).2
            ((FORMAT_INFO.getD mask 0).testBit (14 - i))) g)).assigned.testBit
        (bitAddr ((List.range 15).foldl (fun g' i =>
          g'.write (hBitsPos.getD i (0, 0)).1 (hBitsPos.getD i (0, 0)).2
            ((FORMAT_INFO.getD mask 0).testBit (14 - i))) g).size
          ((vBitsPos ((List.range 15).foldl (fun g' i =>
            g'.write (hBitsPos.getD i (0, 0)).1 (hBitsPos.getD i (0, 0)).2
              ((FORMAT_INFO.getD mask 0).testBit (14 - i))) g).size).getD i (0, 0)).1
          ((vBitsPos ((List.range 15).foldl (fun g' i =>
            g'.write (hBitsPos.getD i (0, 0)).1 (hBitsPos.getD i (0, 0)).2
              ((FORMAT_INFO.getD mask 0).testBit (14 - i))) g).size).getD i (0, 0)).2) =
        true :=
      foldl_writer_sets
        (fun g' i => g'.write ((vBitsPos g'.size).getD i (0, 0)).1
          ((vBitsPos g'.size).getD i (0, 0)).2
          ((FORMAT_INFO.getD mask 0).testBit (14 - i)))
        (fun s i => bitAddr s ((vBitsPos s).getD i (0, 0)).1 ((vBitsPos s).getD i (0, 0)).2)
        (fun g' i j h => write_assigned_mono g' _ _ _ j h)
        (fun g' i => write_size g' _ _ _)
        (fun g' i => by
          rw [write_assigned]
          exact testBit_setBit_self _ _)
        (List.range 15) _ i hi
    rw [hsz, hig] at h2
    exact h2

/-- The version-information pass (versions 7 and up) assigns both transposed
cells of every bit index. -/
theorem placeVersionInfo_sets (g : GridState) (version : Nat) (h7 : ¬ version < 7)
    (i : Nat) (hi : i ∈ List.range 18) :
    (placeVersionInfo g version).assigned.testBit
        (bitAddr g.size (i / 3) (g.size - 11 + i % 3)) = true ∧
      (placeVersionInfo g version).assigned.testBit
        (bitAddr g.size (g.size - 11 + i % 3) (i / 3)) = true := by
  unfold placeVersionInfo
  rw [if_neg h7]
  constructor
  · have h1 : ((List.range 18).foldl (fun g' i =>
        (g'.write (i / 3) (g'.size - 11 + i % 3) ((getVersionInfo version).testBit i)).write
          (g'.size - 11 + i % 3) (i / 3) ((getVersionInfo version).testBit i)) g).assigned.testBit
        (bitAddr g.size (i / 3) (g.size - 11 + i % 3)) = true :=
      foldl_writer_sets
        (fun g' i =>
          (g'.write (i / 3) (g'.size - 11 + i % 3) ((getVersionInfo version).testBit i)).write
            (g'.size - 11 + i % 3) (i / 3) ((getVersionInfo version).testBit i))
        (fun s i => bitAddr s (i / 3) (s - 11 + i % 3))
        (fun g' i j h => write_assigned_mono _ _ _ _ j (write_assigned_mono g' _ _ _ j h))
        (fun g' i => (write_size _ _ _ _).trans (write_size g' _ _ _))
        (fun g' i => by
          apply write_assigned_mono
          rw [write_assigned]
          exact testBit_setBit_self _ _)
        (List.range 18) g i hi
    exact h1
  · have h2 : ((List.range 18).foldl (fun g' i =>
        (g'.write (i / 3) (g'.size - 11 + i % 3) ((getVersionInfo version).testBit i)).write
          (g'.size - 11 + i % 3) (i / 3) ((getVersionInfo version).testBit i)) g).assigned.testBit
        (bitAddr g.size (g.size - 11 + i % 3) (i / 3)) = true :=
      foldl_writer_sets
        (fun g' i =>
          (g'.write (i / 3) (g'.size - 11 + i % 3) ((getVersionInfo version).testBit i)).write
            (g'.size - 11 + i % 3) (i / 3) ((getVersionInfo version).testBit i))
        (fun s i => bitAddr s (s - 11 + i % 3) (i / 3))
        (fun g' i j h => write_assigned_mono _ _ _ _ j (write_assigned_mono g' _ _ _ j h))
        (fun g' i => (write_size _ _ _ _).trans (write_size g' _ _ _))
        (fun g' i => by
          rw [write_assigned]
          show (setBit ((g'.write (i / 3) (g'.size - 11 + i % 3)
            ((getVersionInfo version).testBit i)).assigned)
            (bitAddr g'.size (g'.size - 11 + i % 3) (i / 3))).testBit
            (bitAddr g'.size (g'.size - 11 + i % 3) (i / 3)) = true
          exact testBit_setBit_self _ _)
        (List.range 18) g i hi
    exact h2

/-! ## Decomposing the reservation mask of the built base -/

theorem alignCenterStep_size (g : GridState) (rc : Nat × Nat) :
    (alignCenterStep g rc).size = g.size := by
  unfold alignCenterStep
  split
  · rfl
  · exact placeAlignment_size g _ _

theorem baseAlign_size (v : Nat) : (baseAlign v).size = v * 4 + 17 := by
  unfold baseAlign
  exact foldl_preserves (fun g => g.size = v * 4 + 17) alignCenterStep
    (fun g rc hg => (alignCenterStep_size g rc).trans hg) (centerPairs v) (baseFinders v)
    (baseFinders_fields v).1

theorem baseDark_size (v : Nat) : (baseDark v).size = v * 4 + 17 := by
  show (placeDarkModule (placeTiming (baseAlign v))).size = _
  rw [(placeDarkModule_fields _).2.1, (placeTiming_fields _).2, baseAlign_size]

theorem buildBase_assigned (v : Nat) :
    (buildBase v).assigned = (baseDark v).reserved := by
  show (reserveVersion (reserveFormat (baseDark v)) v).assigned = _
  rw [(reserveVersion_fields (reserveFormat (baseDark v)) v).2.2,
    (reserveFormat_fields (baseDark v)).2.2, baseDark_assigned_eq_reserved]

theorem buildBase_reserved_split (v j : Nat)
    (h : (buildBase v).reserved.testBit j = true) :
    (baseDark v).reserved.testBit j = true ∨
      j ∈ formatAddrs (v * 4 + 17) ∨ j ∈ versionAddrs (v * 4 + 17) v := by
  have h1 := (reserveVersion_fields (reserveFormat (baseDark v)) v).1
  have h2 := (reserveFormat_fields (baseDark v)).1
  have hs2 := (reserveFormat_fields (baseDark v)).2.1
  have hbb : buildBase v = reserveVersion (reserveFormat (baseDark v)) v := rfl
  rw [hbb, h1, hs2, baseDark_size, h2, baseDark_size,
    testBit_foldl_setBit, testBit_foldl_setBit] at h
  rcases Bool.or_eq_true_iff.mp h with h' | h'
  · rcases Bool.or_eq_true_iff.mp h' with h'' | h''
    · exact Or.inl h''
    · exact Or.inr (Or.inl (of_decide_eq_true h''))
  · exact Or.inr (Or.inr (of_decide_eq_true h'))

theorem baseDark_reserved_strips (v j : Nat)
    (hj : (j ∈ (List.range' 8 (v * 4 + 17 - 16)).map fun i => bitAddr (v * 4 + 17) 6 i) ∨
      (j ∈ (List.range' 8 (v * 4 + 17 - 16)).map fun i => bitAddr (v * 4 + 17) i 6) ∨
      j = bitAddr (v * 4 + 17) (v * 4 + 17 - 8) 8) :
    (baseDark v).reserved.testBit j = true := by
  show (placeDarkModule (placeTiming (baseAlign v))).reserved.testBit j = true
  rw [(placeDarkModule_fields _).1, (placeTiming_fields _).2, baseAlign_size,
    testBit_setBit]
  rcases hj with hj | hj | hj
  · apply or_absorb_left
    rw [(placeTiming_fields _).1, baseAlign_size, timing_foldl_eq_strips,
      Nat.testBit_lor, Nat.testBit_lor]
    apply or_absorb_left
    apply or_absorb_right
    rw [testBit_foldl_setBit]
    apply or_absorb_right
    exact decide_eq_true hj
  · apply or_absorb_left
    rw [(placeTiming_fields _).1, baseAlign_size, timing_foldl_eq_strips,
      Nat.testBit_lor, Nat.testBit_lor]
    apply or_absorb_right
    rw [testBit_foldl_setBit]
    apply or_absorb_right
    exact decide_eq_true hj
  · apply or_absorb_right
    exact decide_eq_true hj.symm

/-! ## Which cells the format and version passes write -/

theorem formatAddr_cases (s j : Nat) (hs : 21 ≤ s) (hj : j ∈ formatAddrs s) :
    (∃ p ∈ hBitsPos ++ vBitsPos s, j = bitAddr s p.1 p.2) ∨
    (j ∈ (List.range' 8 (s - 16)).map fun i => bitAddr s 6 i) ∨
    (j ∈ (List.range' 8 (s - 16)).map fun i => bitAddr s i 6) ∨
    j = bitAddr s (s - 8) 8 := by
  unfold formatAddrs at hj
  rw [List.mem_append, List.mem_flatMap] at hj
  rcases hj with ⟨i, hi, hj⟩ | hj
  · rw [List.mem_range] at hi
    unfold formatAddrs4 at hj
    simp only [List.mem_cons, List.not_mem_nil, or_false] at hj
    rcases hj with rfl | rfl | rfl | rfl
    · by_cases h6 : i = 6
      · subst h6
        refine Or.inr (Or.inr (Or.inl ?_))
        rw [List.mem_map]
        exact ⟨8, by rw [List.mem_range'_1]; omega, rfl⟩
      · refine Or.inl ⟨(8, i), ?_, rfl⟩
        rw [List.mem_append]
        left
        interval_cases i
        · decide
        · decide
        · decide
        · decide
        · decide
        · decide
        · exact absurd rfl h6
        · decide
    · refine Or.inl ⟨(8, s - (i + 1)), ?_, ?_⟩
      · rw [List.mem_append]
        right
        interval_cases i <;> simp [vBitsPos]
      · have hx : s - 1 - i = s - (i + 1) := by omega
        rw [hx]
    · by_cases h6 : i = 6
      · subst h6
        refine Or.inr (Or.inl ?_)
        rw [List.mem_map]
        exact ⟨8, by rw [List.mem_range'_1]; omega, rfl⟩
      · refine Or.inl ⟨(i, 8), ?_, rfl⟩
        rw [List.mem_append]
        left
        interval_cases i
        · decide
        · decide
        · decide
        · decide
        · decide
        · decide
        · exact absurd rfl h6
        · decide
    · by_cases h7 : i = 7
      · subst h7
        refine Or.inr (Or.inr (Or.inr ?_))
        have hx : s - 1 - 7 = s - 8 := by omega
        rw [hx]
      · refine Or.inl ⟨(s - (i + 1), 8), ?_, ?_⟩
        · rw [List.mem_append]
          right
          interval_cases i
          · simp [vBitsPos]
          · simp [vBitsPos]
          · simp [vBitsPos]
          · simp [vBitsPos]
          · simp [vBitsPos]
          · simp [vBitsPos]
          · simp [vBitsPos]
          · exact absurd rfl h7
        · have hx : s - 1 - i = s - (i + 1) := by omega
          rw [hx]
  · simp only [List.mem_cons, List.not_mem_nil, or_false] at hj
    subst hj
    refine Or.inl ⟨(8, 8), ?_, rfl⟩
    rw [List.mem_append]
    left
    decide

theorem versionAddr_cases (s v j : Nat) (hj : j ∈ versionAddrs s v) :
    ¬ v < 7 ∧ ∃ i, i ∈ List.range 18 ∧
      (j = bitAddr s (i / 3) (s - 11 + i % 3) ∨
        j = bitAddr s (s - 11 + i % 3) (i / 3)) := by
  unfold versionAddrs at hj
  by_cases h7 : v < 7
  · rw [if_pos h7] at hj
    cases hj
  · rw [if_neg h7] at hj
    refine ⟨h7, ?_⟩
    rw [List.mem_flatMap] at hj
    obtain ⟨i, hi, hj⟩ := hj
    rw [List.mem_range] at hi
    rw [List.mem_flatMap] at hj
    obtain ⟨jj, hjj, hj⟩ := hj
    rw [List.mem_range] at hjj
    unfold versionAddrs2 at hj
    simp only [List.mem_cons, List.not_mem_nil, or_false] at hj
    refine ⟨i * 3 + jj, by rw [List.mem_range]; omega, ?_⟩
    have e1 : (i * 3 + jj) / 3 = i := by omega
    have e2 : (i * 3 + jj) % 3 = jj := by omega
    rw [e1, e2]
    exact hj

/-! ## Every cell of the finished symbol is assigned -/

theorem cell_isSome (g : GridState) (r c : Nat) :
    (g.cell r c).isSome = g.assigned.testBit (bitAddr g.size r c) := by
  unfold GridState.cell
  by_cases h : g.assigned.testBit (bitAddr g.size r c) = true
  · rw [if_pos h, h]
    rfl
  · rw [if_neg h]
    rw [Bool.not_eq_true] at h
    rw [h]
    rfl

theorem applyMask_size (g : GridState) (m : Nat) : (applyMask g m).size = g.size := by
  unfold applyMask
  apply foldl_preserves (fun g' => g'.size = g.size)
  · intro g' r hg'
    apply foldl_preserves (fun g'' => g''.size = g.size)
    · intro g'' c hg''
      split
      · exact hg''
      · split
        · exact (flip_size _ _ _).trans hg''
        · exact hg''
    · exact hg'
  · rfl

theorem placeFormatInfo_size (g : GridState) (mask : Nat) :
    (placeFormatInfo g mask).size = g.size := by
  unfold placeFormatInfo
  rw [foldl_writer_size _ (fun g' i => write_size g' _ _ _),
    foldl_writer_size _ (fun g' i => write_size g' _ _ _)]

theorem placeVersionInfo_size (g : GridState) (version : Nat) :
    (placeVersionInfo g version).size = g.size := by
  unfold placeVersionInfo
  split
  · rfl
  · show ((List.range 18).foldl (fun g' i =>
      (g'.write (i / 3) (g'.size - 11 + i % 3) ((getVersionInfo version).testBit i)).write
        (g'.size - 11 + i % 3) (i / 3) ((getVersionInfo version).testBit i)) g).size = g.size
    exact foldl_writer_size _ (fun g' i =>
      (write_size _ _ _ _).trans (write_size g' _ _ _)) _ _

theorem buildSymbol_all_assigned (v : Nat) (h1v : 1 ≤ v) (h40 : v ≤ 40)
    (bytes : List Nat) :
    (buildSymbol v bytes).size = v * 4 + 17 ∧
    ∀ r c, r < v * 4 + 17 → c < v * 4 + 17 →
      ((buildSymbol v bytes).cell r c).isSome = true := by
  obtain ⟨hres, hsize⟩ := buildBase_fields v h40
  set G1 := (placeData (buildBase v) (encodeData bytes v)).1 with hG1def
  set bm := selectBestMask G1 with hbmdef
  set G2 := applyMask G1 bm with hG2def
  set G3 := placeFormatInfo G2 bm with hG3def
  have hbs : buildSymbol v bytes = placeVersionInfo G3 v := rfl
  have hG1size : G1.size = v * 4 + 17 := by
    rw [hG1def]
    show (placeData (buildBase v) (encodeData bytes v)).1.size = _
    unfold placeData
    rw [(placeData_foldl_inv _ _ _ _).2]
    exact hsize
  have hG2size : G2.size = v * 4 + 17 := by
    rw [hG2def, applyMask_size]
    exact hG1size
  have hG3size : G3.size = v * 4 + 17 := by
    rw [hG3def, placeFormatInfo_size]
    exact hG2size
  have hG4size : (buildSymbol v bytes).size = v * 4 + 17 := by
    rw [hbs, placeVersionInfo_size]
    exact hG3size
  refine ⟨hG4size, ?_⟩
  intro r c hr hc
  rw [cell_isSome, hG4size]
  have hG1eq : placeData (buildBase v) (encodeData bytes v) =
      (visitSeq (v * 4 + 17)).foldl
        (placeDataStep ((encodeData bytes v).length * 8) (encodeData bytes v))
        (buildBase v, 0) := by
    unfold placeData
    rw [hsize]
  have hchar := placeData_foldl_assigned ((encodeData bytes v).length * 8)
    (encodeData bytes v) (visitSeq (v * 4 + 17)) (buildBase v, 0)
    (bitAddr (v * 4 + 17) r c)
  have hpush : (buildBase v).assigned.testBit (bitAddr (v * 4 + 17) r c) = true →
      (placeVersionInfo G3 v).assigned.testBit (bitAddr (v * 4 + 17) r c) = true := by
    intro hA
    have hG1a : G1.assigned.testBit (bitAddr (v * 4 + 17) r c) = true := by
      rw [hG1def]
      show (placeData (buildBase v) (encodeData bytes v)).1.assigned.testBit _ = true
      rw [hG1eq]
      exact hchar.mpr (Or.inl hA)
    have h2 := (applyMask_mono G1 bm _ hG1a).1
    have h3 := (placeFormatInfo_mono G2 bm _ h2).1
    exact (placeVersionInfo_mono G3 v _ h3).1
  by_cases hfree : (baseResMask v).testBit (bitAddr (v * 4 + 17) r c) = true
  · -- the cell is reserved in the built base
    have hsplit := buildBase_reserved_split v (bitAddr (v * 4 + 17) r c)
      (by rw [hres]; exact hfree)
    rcases hsplit with hdark | hfmt | hver
    · rw [hbs]
      exact hpush (by rw [buildBase_assigned]; exact hdark)
    · rcases formatAddr_cases (v * 4 + 17) _ (by omega) hfmt with ⟨p, hp, hpj⟩ | hstrip
      · -- assigned by the format-information pass, preserved afterwards
        have h3 := placeFormatInfo_sets G2 bm p (by rw [hG2size]; exact hp)
        rw [hG2size] at h3
        rw [hbs, hpj]
        exact (placeVersionInfo_mono G3 v _ (hG3def ▸ h3)).1
      · rw [hbs]
        exact hpush (by
          rw [buildBase_assigned]
          exact baseDark_reserved_strips v _ hstrip)
    · obtain ⟨h7, i, hi, hij⟩ := versionAddr_cases (v * 4 + 17) v _ hver
      have h4 := placeVersionInfo_sets G3 v h7 i hi
      rw [hG3size] at h4
      rw [hbs]
      rcases hij with he | he
      · rw [he]
        exact h4.1
      · rw [he]
        exact h4.2
  · -- the cell is free and is written by the data pass
    have hc6 : c ≠ 6 := by
      intro h6
      subst h6
      exact hfree (col6_reserved v h1v r hr)
    rw [Bool.not_eq_true] at hfree
    have hG1a : G1.assigned.testBit (bitAddr (v * 4 + 17) r c) = true := by
      rw [hG1def]
      show (placeData (buildBase v) (encodeData bytes v)).1.assigned.testBit _ = true
      rw [hG1eq]
      apply hchar.mpr
      right
      refine ⟨(r, c), ?_, ?_, ?_⟩
      · rw [mem_visitSeq v (by omega)]
        exact ⟨hr, hc, hc6⟩
      · show (buildBase v).isReserved r c = false
        unfold GridState.isReserved
        rw [hres, hsize]
        exact hfree
      · show bitAddr (v * 4 + 17) r c = bitAddr (buildBase v).size r c
        rw [hsize]
    have h2 := (applyMask_mono G1 bm _ hG1a).1
    have h3 := (placeFormatInfo_mono G2 bm _ h2).1
    rw [hbs]
    exact (placeVersionInfo_mono G3 v _ h3).1

/-! ## Penalty rule 1 as a sum over maximal runs -/

theorem linePenGo_runs {α : Type} [DecidableEq α] :
    ∀ (l : List α) (a : α) (k : Nat),
      linePenGo a k l + (if 5 ≤ k then 3 + (k - 5) else 0) =
        ((runLengthsGo a k l).map fun n => if 5 ≤ n then 3 + (n - 5) else 0).sum := by
  intro l
  induction l with
  | nil =>
    intro a k
    show 0 + _ = ([k].map fun n => if 5 ≤ n then 3 + (n - 5) else 0).sum
    simp
  | cons b l ih =>
    intro a k
    show (if b = a then
        (if k + 1 = 5 then 3 else if 5 < k + 1 then 1 else 0) + linePenGo b (k + 1) l
      else linePenGo b 1 l) + (if 5 ≤ k then 3 + (k - 5) else 0) =
      ((if b = a then runLengthsGo a (k + 1) l else k :: runLengthsGo b 1 l).map
        fun n => if 5 ≤ n then 3 + (n - 5) else 0).sum
    by_cases hba : b = a
    · subst hba
      rw [if_pos rfl, if_pos rfl]
      have hih := ih b (k + 1)
      rw [← hih]
      have h5 : (if k + 1 = 5 then 3 else if 5 < k + 1 then 1 else 0) +
          (if 5 ≤ k then 3 + (k - 5) else 0) =
          (if 5 ≤ k + 1 then 3 + (k + 1 - 5) else 0) := by
        split_ifs <;> omega
      omega
    · rw [if_neg hba, if_neg hba]
      rw [List.map_cons, List.sum_cons]
      have hih := ih b 1
      rw [← hih]
      have h1 : (if 5 ≤ (1 : Nat) then 3 + (1 - 5) else 0) = 0 := by norm_num
      omega

theorem linePen_runs {α : Type} [DecidableEq α] (l : List α) :
    linePen l = ((runLengths l).map fun n => if 5 ≤ n then 3 + (n - 5) else 0).sum := by
  cases l with
  | nil => rfl
  | cons a l =>
    show linePenGo a 1 l =
      ((runLengthsGo a 1 l).map fun n => if 5 ≤ n then 3 + (n - 5) else 0).sum
    have h := linePenGo_runs l a 1
    have h1 : (if 5 ≤ (1 : Nat) then 3 + (1 - 5) else 0) = 0 := by norm_num
    omega

/-! ## First-minimum characterization of the mask-selection fold -/

theorem bestFold (pen : Nat → Nat) :
    ∀ (l : List Nat) (b : Nat), l.Pairwise (· < ·) → (∀ m ∈ l, b < m) →
      ∃ rb, (l.foldl (selStep pen) (b, some (pen b))) = (rb, some (pen rb)) ∧
        (rb = b ∨ rb ∈ l) ∧
        pen rb ≤ pen b ∧ (∀ m ∈ l, pen rb ≤ pen m) ∧
        (b < rb → pen rb < pen b) ∧
        (∀ m ∈ l, m < rb → pen rb < pen m) := by
  intro l
  induction l with
  | nil =>
    intro b _ _
    exact ⟨b, rfl, Or.inl rfl, Nat.le_refl _, by simp, by omega, by simp⟩
  | cons m0 l ih =>
    intro b hpw hb
    rw [List.pairwise_cons] at hpw
    rw [List.foldl_cons]
    have hstep : selStep pen (b, some (pen b)) m0 =
        if pen m0 < pen b then (m0, some (pen m0)) else (b, some (pen b)) := by
      show (if pen m0 < pen b then (m0, some (pen m0)) else (b, some (pen b))) = _
      rfl
    rw [hstep]
    by_cases hlt : pen m0 < pen b
    · rw [if_pos hlt]
      obtain ⟨rb, hfold, hmem, hle, hall, hstrictb, hstrictl⟩ :=
        ih m0 hpw.2 (fun m hm => hpw.1 m hm)
      refine ⟨rb, hfold, ?_, ?_, ?_, ?_, ?_⟩
      · rcases hmem with rfl | h
        · exact Or.inr (List.mem_cons_self _ _)
        · exact Or.inr (List.mem_cons_of_mem _ h)
      · omega
      · intro m hm
        rcases List.mem_cons.mp hm with rfl | hm'
        · exact hle
        · exact hall m hm'
      · intro _
        omega
      · intro m hm hmrb
        rcases List.mem_cons.mp hm with rfl | hm'
        · exact hstrictb hmrb
        · exact hstrictl m hm' hmrb
    · rw [if_neg hlt]
      obtain ⟨rb, hfold, hmem, hle, hall, hstrictb, hstrictl⟩ :=
        ih b hpw.2 (fun m hm => hb m (List.mem_cons_of_mem _ hm))
      refine ⟨rb, hfold, ?_, ?_, ?_, ?_, ?_⟩
      · rcases hmem with rfl | h
        · exact Or.inl rfl
        · exact Or.inr (List.mem_cons_of_mem _ h)
      · exact hle
      · intro m hm
        rcases List.mem_cons.mp hm with rfl | hm'
        · omega
        · exact hall m hm'
      · exact hstrictb
      · intro m hm hmrb
        rcases List.mem_cons.mp hm with rfl | hm'
        · have h1 : b < m := hb m (List.mem_cons_self _ _)
          have h2 := hstrictb (by omega)
          omega
        · exact hstrictl m hm' hmrb

/-! ## Lengths through the bit padding of `dataBytesOf` -/

theorem pushBits_length (arr : List Nat) (v n : Nat) :
    (pushBits arr v n).length = arr.length + n := by
  unfold pushBits
  simp

theorem foldl_pushBits_length (data : List Nat) :
    ∀ bits : List Nat,
      (data.foldl (fun bits byte => pushBits bits byte 8) bits).length =
        bits.length + 8 * data.length := by
  induction data with
  | nil => intro bits; simp
  | cons byte data ih =>
    intro bits
    rw [List.foldl_cons, ih, pushBits_length]
    simp
    omega

theorem length_flatMap_const {α β : Type} (l : List α) (f : α → List β) (k : Nat)
    (h : ∀ x ∈ l, (f x).length = k) : (l.flatMap f).length = l.length * k := by
  induction l with
  | nil => simp
  | cons a l ih =>
    rw [List.flatMap_cons, List.length_append, h a (List.mem_cons_self _ _),
      ih (fun x hx => h x (List.mem_cons_of_mem _ hx)), List.length_cons]
    ring

theorem padHeader_length (data : List Nat) (cb : Nat) :
    (padHeader data cb).length = 4 + cb + 8 * data.length := by
  unfold padHeader
  rw [foldl_pushBits_length, pushBits_length, pushBits_length]
  simp

theorem padTerm_length (data : List Nat) (cb dataBits : Nat) :
    (padTerm data cb dataBits).length =
      (padHeader data cb).length +
        min 4 (dataBits - (padHeader data cb).length) := by
  unfold padTerm
  rw [pushBits_length]

theorem padAlign_length (data : List Nat) (cb dataBits : Nat) :
    (padAlign data cb dataBits).length =
      (padTerm data cb dataBits).length +
        (8 - (padTerm data cb dataBits).length % 8) % 8 := by
  unfold padAlign
  rw [List.length_append, List.length_replicate]

theorem padBits_length (data : List Nat) (cb dataBits : Nat)
    (hcap : 4 + cb + 8 * data.length ≤ dataBits) (hmod : dataBits % 8 = 0) :
    (padBits data cb dataBits).length = dataBits := by
  unfold padBits
  rw [List.length_append,
    length_flatMap_const _ _ 8 (fun x _ => by simp), List.length_range]
  have hH := padHeader_length data cb
  have hT := padTerm_length data cb dataBits
  have hA := padAlign_length data cb dataBits
  omega

theorem bitsToBytes_length (bits : List Nat) :
    (bitsToBytes bits).length = (bits.length + 7) / 8 := by
  unfold bitsToBytes
  simp

theorem dataBytesOf_eq (data : List Nat) (version : Nat) :
    dataBytesOf data version =
      bitsToBytes (padBits data (if version ≤ 9 then 8 else 16)
        ((getTotalCodewords version -
          getEcCodewordsPerBlock version * getNumBlocks version) * 8)) := rfl

theorem cap_fits_codewords :
    ∀ v, v < 41 → 1 ≤ v →
      4 + (if v ≤ 9 then 8 else 16) + 8 * capacityM v ≤
        (getTotalCodewords v - getEcCodewordsPerBlock v * getNumBlocks v) * 8 := by
  decide

theorem dataBytesOf_length (data : List Nat) (v : Nat) (h1 : 1 ≤ v) (h40 : v ≤ 40)
    (hcap : data.length ≤ capacityM v) :
    (dataBytesOf data v).length =
      getTotalCodewords v - getEcCodewordsPerBlock v * getNumBlocks v := by
  rw [dataBytesOf_eq, bitsToBytes_length, padBits_length]
  · omega
  · have h := cap_fits_codewords v (by omega) h1
    omega
  · omega

/-! ## The block split -/

theorem ite_zero_one_pos (x : Nat) : 1 ≤ if x = 0 then 1 else x := by
  split
  · omega
  · rename_i h
    omega

theorem getNumBlocks_pos (v : Nat) : 1 ≤ getNumBlocks v :=
  ite_zero_one_pos _

theorem mkBlocks_fold (db : List Nat) (nb short long : Nat) :
    ∀ n,
      ((List.range n).foldl (fun (st : List (List Nat) × Nat) b =>
        (st.1 ++ [(db.drop st.2).take (short + if nb - long ≤ b then 1 else 0)],
          st.2 + (short + if nb - long ≤ b then 1 else 0))) ([], 0)).2 =
        ((List.range n).map fun b => short + if nb - long ≤ b then 1 else 0).sum ∧
      ((List.range n).foldl (fun (st : List (List Nat) × Nat) b =>
        (st.1 ++ [(db.drop st.2).take (short + if nb - long ≤ b then 1 else 0)],
          st.2 + (short + if nb - long ≤ b then 1 else 0))) ([], 0)).1.length = n ∧
      ((List.range n).foldl (fun (st : List (List Nat) × Nat) b =>
        (st.1 ++ [(db.drop st.2).take (short + if nb - long ≤ b then 1 else 0)],
          st.2 + (short + if nb - long ≤ b then 1 else 0))) ([], 0)).1.flatten =
        db.take (((List.range n).map fun b =>
          short + if nb - long ≤ b then 1 else 0).sum) ∧
      ∀ b, b < n →
        ((List.range n).foldl (fun (st : List (List Nat) × Nat) b =>
          (st.1 ++ [(db.drop st.2).take (short + if nb - long ≤ b then 1 else 0)],
            st.2 + (short + if nb - long ≤ b then 1 else 0))) ([], 0)).1.getD b [] =
          (db.drop (((List.range b).map fun j =>
            short + if nb - long ≤ j then 1 else 0).sum)).take
            (short + if nb - long ≤ b then 1 else 0) := by
  intro n
  induction n with
  | zero =>
    refine ⟨rfl, rfl, by simp, ?_⟩
    intro b hb
    omega
  | succ n ih =>
    obtain ⟨ih2, ih1, ihf, ihb⟩ := ih
    have hrs : List.range (n + 1) = List.range n ++ [n] := List.range_succ n
    rw [hrs, List.foldl_append, List.foldl_cons, List.foldl_nil, List.map_append,
      List.sum_append]
    set F := ((List.range n).foldl (fun (st : List (List Nat) × Nat) b =>
      (st.1 ++ [(db.drop st.2).take (short + if nb - long ≤ b then 1 else 0)],
        st.2 + (short + if nb - long ≤ b then 1 else 0))) ([], 0)) with hF
    have hone : (([n].map fun b => short + if nb - long ≤ b then 1 else 0).sum =
        short + if nb - long ≤ n then 1 else 0) := by simp
    refine ⟨?_, ?_, ?_, ?_⟩
    · show F.2 + (short + if nb - long ≤ n then 1 else 0) = _
      rw [ih2, hone]
    · show (F.1 ++ [(db.drop F.2).take (short + if nb - long ≤ n then 1 else 0)]).length =
        n + 1
      rw [List.length_append, ih1]
      rfl
    · show (F.1 ++ [(db.drop F.2).take (short + if nb - long ≤ n then 1 else 0)]).flatten =
        _
      rw [List.flatten_append, ihf, ih2, hone]
      show _ ++ ((db.drop _).take _ ++ []) = _
      rw [List.append_nil]
      conv_rhs => rw [List.take_add]
    · intro b hb
      show (F.1 ++ [(db.drop F.2).take (short + if nb - long ≤ n then 1 else 0)]).getD
        b [] = _
      by_cases hbn : b < n
      · have hlen : b < F.1.length := by
          rw [ih1]
          exact hbn
        rw [List.getD_eq_getElem?_getD, List.getElem?_append_left hlen,
          ← List.getD_eq_getElem?_getD]
        exact ihb b hbn
      · have hbn' : b = n := by omega
        subst hbn'
        rw [List.getD_eq_getElem?_getD]
        have hcat := List.getElem?_concat_length F.1
          ((db.drop F.2).take (short + if nb - long ≤ b then 1 else 0))
        rw [ih1] at hcat
        rw [hcat, ih2]
        rfl

theorem sum_lenF (short K : Nat) :
    ∀ n, ((List.range n).map fun j => short + if K ≤ j then 1 else 0).sum =
      n * short + (n - min n K) := by
  intro n
  induction n with
  | zero => simp
  | succ n ih =>
    rw [List.range_succ, List.map_append, List.sum_append, ih]
    have hone : (([n].map fun j => short + if K ≤ j then 1 else 0).sum =
        short + if K ≤ n then 1 else 0) := by simp
    have hmul : (n + 1) * short = n * short + short := by ring
    rw [hone, hmul]
    split
    · rename_i h
      omega
    · rename_i h
      omega

theorem sum_lenF_mono (short K m n : Nat) (h : m ≤ n) :
    ((List.range m).map fun j => short + if K ≤ j then 1 else 0).sum ≤
      ((List.range n).map fun j => short + if K ≤ j then 1 else 0).sum := by
  obtain ⟨d, rfl⟩ := Nat.le.dest h
  rw [List.range_add, List.map_append, List.sum_append]
  omega

theorem mkBlocks_spec (db : List Nat) (nb short long : Nat) (hnb : 1 ≤ nb)
    (hlen : db.length = nb * short + long) (hlong : long < nb) :
    (mkBlocks db nb short long).length = nb ∧
    (mkBlocks db nb short long).flatten = db ∧
    ∀ b, b < nb → ((mkBlocks db nb short long).getD b []).length =
      short + if nb - long ≤ b then 1 else 0 := by
  obtain ⟨h2, h1, hf, hb⟩ := mkBlocks_fold db nb short long nb
  have htot : ((List.range nb).map fun b => short + if nb - long ≤ b then 1 else 0).sum =
      nb * short + long := by
    rw [sum_lenF]
    have hmin : min nb (nb - long) = nb - long := by omega
    omega
  refine ⟨h1, ?_, ?_⟩
  · show ((List.range nb).foldl (fun (st : List (List Nat) × Nat) b =>
      (st.1 ++ [(db.drop st.2).take (short + if nb - long ≤ b then 1 else 0)],
        st.2 + (short + if nb - long ≤ b then 1 else 0))) ([], 0)).1.flatten = db
    rw [hf, htot, ← hlen, List.take_length]
  · intro b hbn
    show (((List.range nb).foldl (fun (st : List (List Nat) × Nat) b =>
      (st.1 ++ [(db.drop st.2).take (short + if nb - long ≤ b then 1 else 0)],
        st.2 + (short + if nb - long ≤ b then 1 else 0))) ([], 0)).1.getD b []).length = _
    rw [hb b hbn, List.length_take, List.length_drop]
    have hmono := sum_lenF_mono short (nb - long) (b + 1) nb hbn
    have hsucc : ((List.range (b + 1)).map fun j =>
        short + if nb - long ≤ j then 1 else 0).sum =
        ((List.range b).map fun j => short + if nb - long ≤ j then 1 else 0).sum +
          (short + if nb - long ≤ b then 1 else 0) := by
      rw [List.range_succ, List.map_append, List.sum_append]
      simp
    rw [htot] at hmono
    omega

/-! ## Reed–Solomon output length -/

theorem foldl_length_inv {α : Type} (step : List Nat → α → List Nat)
    (h : ∀ l x, (step l x).length = l.length) :
    ∀ (xs : List α) (l : List Nat), (xs.foldl step l).length = l.length := by
  intro xs
  induction xs with
  | nil => intro l; rfl
  | cons x xs ih =>
    intro l
    rw [List.foldl_cons, ih, h]

theorem listXorAt_length (l : List Nat) (i v : Nat) :
    (listXorAt l i v).length = l.length := by
  unfold listXorAt
  exact List.length_set _ _ _

theorem reedSolomonEncode_length (data : List Nat) (ecLen : Nat) :
    (reedSolomonEncode data ecLen).length = ecLen := by
  show (((List.range data.length).foldl (fun msg i =>
      if msg.getD i 0 ≠ 0 then
        (List.range (rsGenPoly ecLen).length).foldl (fun msg2 j =>
          listXorAt msg2 (i + j) (gfMul ((rsGenPoly ecLen).getD j 0) (msg.getD i 0)))
          msg
      else msg) (data ++ List.replicate ecLen 0)).drop data.length).length = ecLen
  rw [List.length_drop, foldl_length_inv]
  · rw [List.length_append, List.length_replicate]
    omega
  · intro l x
    split
    · exact foldl_length_inv _ (fun l' x' => listXorAt_length _ _ _) _ _
    · rfl

theorem blocksEc_length (data : List Nat) (v : Nat) :
    ∀ bl ∈ blocksEcOf data v, bl.length = getEcCodewordsPerBlock v := by
  intro bl hbl
  unfold blocksEcOf at hbl
  rw [List.mem_map] at hbl
  obtain ⟨block, _, hrfl⟩ := hbl
  rw [← hrfl]
  exact reedSolomonEncode_length _ _

theorem blocks_spec (data : List Nat) (v : Nat) (h1 : 1 ≤ v) (h40 : v ≤ 40)
    (hcap : data.length ≤ capacityM v) :
    (blocksDataOf data v).length = getNumBlocks v ∧
    (blocksDataOf data v).flatten = dataBytesOf data v ∧
    ∀ b, b < getNumBlocks v → ((blocksDataOf data v).getD b []).length =
      (getTotalCodewords v - getEcCodewordsPerBlock v * getNumBlocks v) /
          getNumBlocks v +
        if getNumBlocks v -
            (getTotalCodewords v - getEcCodewordsPerBlock v * getNumBlocks v) %
              getNumBlocks v ≤ b
          then 1 else 0 := by
  have hdb := dataBytesOf_length data v h1 h40 hcap
  have hnb := getNumBlocks_pos v
  have hdm := Nat.div_add_mod
    (getTotalCodewords v - getEcCodewordsPerBlock v * getNumBlocks v) (getNumBlocks v)
  obtain ⟨hl, hf, hlen⟩ := mkBlocks_spec (dataBytesOf data v) (getNumBlocks v)
    ((getTotalCodewords v - getEcCodewordsPerBlock v * getNumBlocks v) / getNumBlocks v)
    ((getTotalCodewords v - getEcCodewordsPerBlock v * getNumBlocks v) % getNumBlocks v)
    hnb (by omega) (Nat.mod_lt _ (by omega))
  exact ⟨hl, hf, hlen⟩

/-! ## Reserved cells are never written by the data pass -/

theorem placeData_foldl_reserved_cell (T : Nat) (cw : List Nat) :
    ∀ (l : List (Nat × Nat)) (st : GridState × Nat) (r c : Nat),
      r < st.1.size → c < st.1.size →
      (∀ p ∈ l, p.1 < st.1.size ∧ p.2 < st.1.size) →
      st.1.isReserved r c = true →
      (l.foldl (placeDataStep T cw) st).1.cell r c = st.1.cell r c := by
  intro l
  induction l with
  | nil => intro st r c _ _ _ _; rfl
  | cons p l ih =>
    intro st r c hr hc hb hres
    rw [List.foldl_cons]
    by_cases hpres : st.1.isReserved p.1 p.2 = true
    · have hstep : placeDataStep T cw st p = st := by
        unfold placeDataStep
        rw [if_pos hpres]
      rw [hstep]
      exact ih st r c hr hc (fun q hq => hb q (List.mem_cons_of_mem p hq)) hres
    · have hpb := hb p (List.mem_cons_self p l)
      have hne : bitAddr st.1.size p.1 p.2 ≠ bitAddr st.1.size r c := by
        intro haddr
        obtain ⟨e1, e2⟩ := bitAddr_inj st.1.size p.1 p.2 r c hpb.2 hc haddr
        rw [e1, e2] at hpres
        exact hpres hres
      rw [Bool.not_eq_true] at hpres
      by_cases hlt : st.2 < T
      · have hstep : placeDataStep T cw st p =
            (st.1.write p.1 p.2 (streamBit cw st.2), st.2 + 1) := by
          unfold placeDataStep
          rw [hpres]
          show (if st.2 < T then _ else _) = _
          rw [if_pos hlt]
          rfl
        rw [hstep]
        have hih := ih (st.1.write p.1 p.2 (streamBit cw st.2), st.2 + 1) r c hr hc
          (fun q hq => hb q (List.mem_cons_of_mem p hq)) hres
        rw [hih]
        exact cell_write_ne st.1 r c p.1 p.2 _ hne
      · have hstep : placeDataStep T cw st p = (st.1.write p.1 p.2 false, st.2) := by
          unfold placeDataStep
          rw [hpres]
          show (if st.2 < T then _ else _) = _
          rw [if_neg hlt]
        rw [hstep]
        have hih := ih (st.1.write p.1 p.2 false, st.2) r c hr hc
          (fun q hq => hb q (List.mem_cons_of_mem p hq)) hres
        rw [hih]
        exact cell_write_ne st.1 r c p.1 p.2 _ hne

theorem placeData_reserved_cell (v : Nat) (h1 : 1 ≤ v) (h40 : v ≤ 40) (cw : List Nat)
    (r c : Nat) (hr : r < v * 4 + 17) (hc : c < v * 4 + 17)
    (hres : (buildBase v).isReserved r c = true) :
    (placeData (buildBase v) cw).1.cell r c = (buildBase v).cell r c := by
  obtain ⟨hresm, hsize⟩ := buildBase_fields v h40
  have hG1eq : placeData (buildBase v) cw =
      (visitSeq (v * 4 + 17)).foldl (placeDataStep (cw.length * 8) cw)
        (buildBase v, 0) := by
    unfold placeData
    rw [hsize]
  rw [hG1eq]
  apply placeData_foldl_reserved_cell
  · show r < (buildBase v).size
    rw [hsize]
    exact hr
  · show c < (buildBase v).size
    rw [hsize]
    exact hc
  · intro p hp
    rcases p with ⟨pr, pc⟩
    rw [mem_visitSeq v (by omega)] at hp
    show pr < (buildBase v).size ∧ pc < (buildBase v).size
    rw [hsize]
    exact ⟨hp.1, hp.2.1⟩
  · exact hres

end QR
/-- C1: for every payload byte length `L ≤ 2331`, `selectVersion` returns the
smallest `v` in 1–40 with byte-mode EC-M capacity at least `L`; moreover
`L = 0` and `L = 14` give version 1, `L = 15` gives version 2, `L = 2331`
gives version 40, and `L = 2332` fails with the capacity error (`none`). -/
theorem C1_selectVersion_minimal :
    (∀ L, L ≤ 2331 → ∃ v, QR.selectVersion L = some v ∧ 1 ≤ v ∧ v ≤ 40 ∧
      L ≤ QR.capacityM v ∧ ∀ u, 1 ≤ u → u < v → QR.capacityM u < L) ∧
    QR.selectVersion 0 = some 1 ∧ QR.selectVersion 14 = some 1 ∧
    QR.selectVersion 15 = some 2 ∧ QR.selectVersion 2331 = some 40 ∧
    QR.selectVersion 2332 = none := by
  refine ⟨?_, by decide, by decide, by decide, by decide, by decide⟩
  intro L hL
  have hfit : L ≤ QR.capacityM (1 + 40 - 1) := by
    simpa [QR.capacityM, QR.capacitiesM] using hL
  have hsome := QR.selectVersionLoop_isSome 40 1 L (by omega) hfit
  obtain ⟨v, hv⟩ := Option.isSome_iff_exists.mp hsome
  obtain ⟨h1, h2, h3, h4⟩ := QR.selectVersionLoop_spec 40 1 L v hv
  exact ⟨v, hv, h1, by omega, h3, h4⟩

/-- C2: the capacity error is the encoder's only failure: `generateQrMatrix`
fails exactly when the payload byte length exceeds 2331 (the version-40
byte-mode capacity at EC level M). The check runs in `selectVersion` before
any grid state is created, so the failure is synchronous and a failing
encode produces no matrix at all; every successful encode returns the fully
built symbol of the selected version. -/
theorem C2_capacity_error_only :
    ∀ bytes : List Nat,
      (QR.generateQrMatrix bytes = none ↔ 2331 < bytes.length) ∧
      (∀ g, QR.generateQrMatrix bytes = some g →
        ∃ v, QR.selectVersion bytes.length = some v ∧ g = QR.buildSymbol v bytes) := by
  intro bytes
  cases hsel : QR.selectVersion bytes.length with
  | none =>
    have hg : QR.generateQrMatrix bytes = none := by
      unfold QR.generateQrMatrix
      rw [hsel]
    constructor
    · rw [hg]
      constructor
      · intro _
        exact (QR.selectVersion_eq_none_iff bytes.length).mp hsel
      · intro _
        rfl
    · intro g hgs
      rw [hg] at hgs
      exact Option.noConfusion hgs
  | some v =>
    have hg : QR.generateQrMatrix bytes = some (QR.buildSymbol v bytes) := by
      unfold QR.generateQrMatrix
      rw [hsel]
    constructor
    · rw [hg]
      constructor
      · intro h
        exact Option.noConfusion h
      · intro hlen
        have hnone := (QR.selectVersion_eq_none_iff bytes.length).mpr hlen
        rw [hnone] at hsel
        exact Option.noConfusion hsel
    · intro g hgs
      rw [hg] at hgs
      injection hgs with hgs
      exact ⟨v, rfl, hgs.symm⟩

/-- C3 counterexample: at version 1 (size 21) the vertical scan direction
does not alternate on every successive column pair across the whole
traversal: the pair starting at column 8 and the pair starting at column 5
(the first pair left of the skipped timing column) are both scanned upward,
because `pairIndex` adds 1 for columns below 6 before halving. The spec-side
alternating sequence differs from the code's directions. -/
theorem C3_direction_counterexample :
    QR.dirSeq 21 =
      [true, false, true, false, true, false, true, true, false, true] ∧
    QR.dirSeqSpec 21 =
      [true, false, true, false, true, false, true, false, true, false] ∧
    QR.dirSeq 21 ≠ QR.dirSeqSpec 21 :=
  ⟨by decide, by decide, by decide⟩

/-- C3 (amended): for every version, data placement walks column pairs right
to left (columns `size-1, size-3, ..., 8`, then — skipping the timing
column 6 entirely — `5, 3, 1`); the scan direction alternates
upward/downward within each side of the timing column but repeats (both
upward) across it, so the directions are `alternating ++ [up, down, up]`;
exactly the in-range cells off column 6 are visited; reserved cells are left
untouched by the pass; and the k-th non-reserved visit receives codeword
bit k, MSB-first within each codeword, with light (`false`) after the
stream ends. -/
theorem C3_traversal_amended :
    ∀ v, 1 ≤ v → v ≤ 40 →
      QR.colSeq (v * 4 + 17) = QR.colSeqClosed v ∧
      QR.dirSeq (v * 4 + 17) =
        ((List.range (2 * v + 5)).map fun k => k % 2 == 0) ++ [true, false, true] ∧
      (∀ r c : Nat, (r, c) ∈ QR.visitSeq (v * 4 + 17) ↔
        r < v * 4 + 17 ∧ c < v * 4 + 17 ∧ c ≠ 6) ∧
      (∀ cw : List Nat, ∀ r c, r < v * 4 + 17 → c < v * 4 + 17 →
        (QR.buildBase v).isReserved r c = true →
        (QR.placeData (QR.buildBase v) cw).1.cell r c = (QR.buildBase v).cell r c) ∧
      (∀ cw : List Nat, ∀ k,
        k < ((QR.visitSeq (v * 4 + 17)).filter fun p =>
          !(QR.buildBase v).isReserved p.1 p.2).length →
        (QR.placeData (QR.buildBase v) cw).1.cell
            (((QR.visitSeq (v * 4 + 17)).filter fun p =>
              !(QR.buildBase v).isReserved p.1 p.2).getD k (0, 0)).1
            (((QR.visitSeq (v * 4 + 17)).filter fun p =>
              !(QR.buildBase v).isReserved p.1 p.2).getD k (0, 0)).2 =
          some (if k < cw.length * 8 then QR.streamBit cw k else false)) := by
  intro v h1 h40
  refine ⟨QR.colSeq_closed v (by omega), QR.dirSeq_closed v (by omega), ?_, ?_, ?_⟩
  · intro r c
    exact QR.mem_visitSeq v (by omega) r c
  · intro cw r c hr hc hres
    exact QR.placeData_reserved_cell v h1 h40 cw r c hr hc hres
  · intro cw k hk
    exact QR.placeData_values v h1 h40 cw k hk

theorem C3_traversal_amended_witness :
    QR.colSeq (1 * 4 + 17) = QR.colSeqClosed 1 :=
  (C3_traversal_amended 1 (by decide) (by decide)).1

/-- C4: for every version 1-40 and any codeword stream of the table length,
`placeData` (which runs before any mask is applied) ends with `bitIdx`
exactly `8 * totalCodewords(version)` — every stream bit is placed into a
non-reserved cell — and every non-reserved cell visited after the stream is
exhausted is set to light (`false`). -/
theorem C4_bits_placed :
    ∀ v, 1 ≤ v → v ≤ 40 → ∀ cw : List Nat, cw.length = QR.getTotalCodewords v →
      (QR.placeData (QR.buildBase v) cw).2 = 8 * QR.getTotalCodewords v ∧
      ∀ k, k < ((QR.visitSeq (v * 4 + 17)).filter fun p =>
          !(QR.buildBase v).isReserved p.1 p.2).length →
        8 * QR.getTotalCodewords v ≤ k →
        (QR.placeData (QR.buildBase v) cw).1.cell
            (((QR.visitSeq (v * 4 + 17)).filter fun p =>
              !(QR.buildBase v).isReserved p.1 p.2).getD k (0, 0)).1
            (((QR.visitSeq (v * 4 + 17)).filter fun p =>
              !(QR.buildBase v).isReserved p.1 p.2).getD k (0, 0)).2 = some false := by
  intro v h1 h40 cw hlen
  constructor
  · exact QR.placeData_bits v h1 h40 cw hlen
  · intro k hk hge
    have hval := QR.placeData_values v h1 h40 cw k hk
    rw [if_neg (by omega)] at hval
    exact hval

theorem C4_bits_placed_witness :
    (QR.placeData (QR.buildBase 1) (List.replicate 26 0)).2 =
      8 * QR.getTotalCodewords 1 :=
  (C4_bits_placed 1 (by decide) (by decide) (List.replicate 26 0) (by decide)).1

/-- C5: for every version and fitting payload, the padded data-codeword
array has exactly `dataCodewords` bytes and is split into `numBlocks`
contiguous blocks — block `b` holds `floor(dataCodewords/numBlocks)`
codewords plus one exactly when `numBlocks - (dataCodewords mod numBlocks)
≤ b`, so the shorter blocks come first — every EC block has
`ecCodewordsPerBlock` codewords, and the output stream is the
position-by-position interleave of the data blocks (skipping exhausted
blocks) followed by the position-by-position interleave of the EC blocks. -/
theorem C5_blocks_interleave :
    ∀ v, 1 ≤ v → v ≤ 40 → ∀ data : List Nat, data.length ≤ QR.capacityM v →
      (QR.dataBytesOf data v).length =
        QR.getTotalCodewords v - QR.getEcCodewordsPerBlock v * QR.getNumBlocks v ∧
      (QR.blocksDataOf data v).length = QR.getNumBlocks v ∧
      (QR.blocksDataOf data v).flatten = QR.dataBytesOf data v ∧
      (∀ b, b < QR.getNumBlocks v → ((QR.blocksDataOf data v).getD b []).length =
        (QR.getTotalCodewords v - QR.getEcCodewordsPerBlock v * QR.getNumBlocks v) /
            QR.getNumBlocks v +
          if QR.getNumBlocks v -
              (QR.getTotalCodewords v -
                QR.getEcCodewordsPerBlock v * QR.getNumBlocks v) % QR.getNumBlocks v ≤ b
            then 1 else 0) ∧
      (∀ bl ∈ QR.blocksEcOf data v, bl.length = QR.getEcCodewordsPerBlock v) ∧
      QR.encodeData data v =
        ((List.range (((QR.blocksDataOf data v).map List.length).foldl max 0)).flatMap
          fun i => (QR.blocksDataOf data v).filterMap fun block => block.get? i) ++
        ((List.range (QR.getEcCodewordsPerBlock v)).flatMap
          fun i => (QR.blocksEcOf data v).filterMap fun block => block.get? i) := by
  intro v h1 h40 data hcap
  obtain ⟨hl, hf, hlen⟩ := QR.blocks_spec data v h1 h40 hcap
  exact ⟨QR.dataBytesOf_length data v h1 h40 hcap, hl, hf, hlen,
    QR.blocksEc_length data v, rfl⟩

theorem C5_blocks_interleave_witness :
    (QR.dataBytesOf [72, 69, 76, 76, 79] 1).length =
      QR.getTotalCodewords 1 - QR.getEcCodewordsPerBlock 1 * QR.getNumBlocks 1 :=
  (C5_blocks_interleave 1 (by decide) (by decide) [72, 69, 76, 76, 79] (by decide)).1

/-- C6: the committed mask ID is in 0-7, its penalty (on the masked
scratch copy) is minimal among the 8 candidates, and every lower mask ID
has strictly larger penalty — so ties go to the lowest ID, because
candidates are tried in ascending order and replace the best only under
strict `<`. -/
theorem C6_best_mask_argmin :
    ∀ g : QR.GridState,
      QR.selectBestMask g < 8 ∧
      (∀ m, m < 8 →
        QR.calcPenalty (QR.maskScratch g (QR.selectBestMask g)) ≤
          QR.calcPenalty (QR.maskScratch g m)) ∧
      (∀ m, m < QR.selectBestMask g →
        QR.calcPenalty (QR.maskScratch g (QR.selectBestMask g)) <
          QR.calcPenalty (QR.maskScratch g m)) := by
  intro g
  obtain ⟨rb, hfold, hmem, hle, hall, hstrictb, hstrictl⟩ :=
    QR.bestFold (fun m => QR.calcPenalty (QR.maskScratch g m)) [1, 2, 3, 4, 5, 6, 7] 0
      (by decide) (by decide)
  have hsel : QR.selectBestMask g = rb := by
    show ((List.range 8).foldl
      (QR.selStep fun m => QR.calcPenalty (QR.maskScratch g m)) (0, none)).1 = rb
    have h8 : List.range 8 = 0 :: [1, 2, 3, 4, 5, 6, 7] := by decide
    rw [h8, List.foldl_cons]
    have hstep0 : QR.selStep (fun m => QR.calcPenalty (QR.maskScratch g m)) (0, none) 0 =
        (0, some (QR.calcPenalty (QR.maskScratch g 0))) := rfl
    rw [hstep0, hfold]
  rw [hsel]
  have hrb7 : rb ≤ 7 := by
    rcases hmem with rfl | h
    · omega
    · have h' : rb = 1 ∨ rb = 2 ∨ rb = 3 ∨ rb = 4 ∨ rb = 5 ∨ rb = 6 ∨ rb = 7 := by
        simpa using h
      omega
  refine ⟨by omega, ?_, ?_⟩
  · intro m hm
    by_cases hm0 : m = 0
    · subst hm0
      exact hle
    · have hmm : m ∈ [1, 2, 3, 4, 5, 6, 7] := by
        simp
        omega
      exact hall m hmm
  · intro m hmr
    by_cases hm0 : m = 0
    · subst hm0
      exact hstrictb hmr
    · have hmm : m ∈ [1, 2, 3, 4, 5, 6, 7] := by
        simp
        omega
      exact hstrictl m hmm hmr

/-- C7: the penalty of a candidate matrix is exactly rule 1 plus rule 4 and
nothing else: over every row and every column, each maximal run of `n ≥ 5`
equal cells scores `3 + (n - 5)`, plus 10 per full 5%-step deviation of the
dark share from 50% (in exact arithmetic,
`floor(|100·dark - 50·total| / (5·total))` steps); the 2×2-block rule and
the 1:1:3:1:1 finder-pattern rule of the ISO standard contribute nothing. -/
theorem C7_penalty_rules_1_and_4 :
    ∀ g : QR.GridState,
      QR.calcPenalty g =
        ((List.range g.size).map fun r =>
          ((QR.runLengths (QR.rowCells g r)).map fun n =>
            if 5 ≤ n then 3 + (n - 5) else 0).sum).sum +
        ((List.range g.size).map fun c =>
          ((QR.runLengths (QR.colCells g c)).map fun n =>
            if 5 ≤ n then 3 + (n - 5) else 0).sum).sum +
        10 * (((100 * QR.darkCount g : Int) -
            50 * ((g.size * g.size : Nat) : Int)).natAbs /
          (5 * (g.size * g.size))) := by
  intro g
  unfold QR.calcPenalty QR.rule4Pen
  simp only [QR.linePen_runs]

/-- C9: over the GF(256) tables built with primitive polynomial 0x11D,
`gfMul` satisfies `gfMul a 0 = 0`, `gfMul 0 b = 0`, commutativity, and in
the nonzero case equals `exp[log a + log b]`. -/
theorem C9_gf_multiply :
    ∀ a b : Nat, a < 256 → b < 256 →
      QR.gfMul a 0 = 0 ∧ QR.gfMul 0 b = 0 ∧ QR.gfMul a b = QR.gfMul b a ∧
      (a ≠ 0 → b ≠ 0 → QR.gfMul a b = QR.GF_EXP (QR.GF_LOG a + QR.GF_LOG b)) := by
  intro a b _ _
  refine ⟨?_, ?_, ?_, ?_⟩
  · unfold QR.gfMul
    rw [if_pos (Or.inr rfl)]
  · unfold QR.gfMul
    rw [if_pos (Or.inl rfl)]
  · unfold QR.gfMul
    by_cases h : a = 0 ∨ b = 0
    · rw [if_pos h, if_pos h.symm]
    · rw [if_neg h, if_neg (fun h' => h h'.symm), Nat.add_comm]
  · intro ha hb
    unfold QR.gfMul
    rw [if_neg]
    rintro (h | h)
    · exact ha h
    · exact hb h

theorem C9_gf_multiply_witness :
    QR.gfMul 7 0 = 0 ∧ QR.gfMul 0 9 = 0 ∧ QR.gfMul 7 9 = QR.gfMul 9 7 ∧
      (7 ≠ 0 → 9 ≠ 0 → QR.gfMul 7 9 = QR.GF_EXP (QR.GF_LOG 7 + QR.GF_LOG 9)) :=
  C9_gf_multiply 7 9 (by decide) (by decide)

/-- C10: on every successful encode, every cell of the size×size tri-state
grid has been explicitly assigned dark or light before the final boolean
conversion — the fixed patterns assign what they reserve, the data pass
(with its trailing light fill) assigns every remaining non-reserved cell,
and the format/version passes assign their reserved strips — so
`cell === true` never coerces an unset cell. -/
theorem C10_all_cells_assigned :
    ∀ (bytes : List Nat) (g : QR.GridState), QR.generateQrMatrix bytes = some g →
      ∃ v, QR.selectVersion bytes.length = some v ∧ 1 ≤ v ∧ v ≤ 40 ∧
        g.size = v * 4 + 17 ∧
        ∀ r c, r < g.size → c < g.size → (g.cell r c).isSome = true := by
  intro bytes g hg
  unfold QR.generateQrMatrix at hg
  cases hsel : QR.selectVersion bytes.length with
  | none =>
    rw [hsel] at hg
    exact Option.noConfusion hg
  | some v =>
    rw [hsel] at hg
    injection hg with hg
    obtain ⟨hv1, hv2, _, _⟩ := QR.selectVersionLoop_spec 40 1 bytes.length v hsel
    obtain ⟨hsize, hcells⟩ := QR.buildSymbol_all_assigned v hv1 (by omega) bytes
    refine ⟨v, rfl, hv1, by omega, ?_, ?_⟩
    · rw [← hg]
      exact hsize
    · intro r c hr hc
      rw [← hg] at hr hc ⊢
      rw [hsize] at hr hc
      exact hcells r c hr hc

theorem C10_all_cells_assigned_witness :
    ∃ v, QR.selectVersion ([72, 69, 76, 76, 79] : List Nat).length = some v ∧
      1 ≤ v ∧ v ≤ 40 ∧
      (QR.buildSymbol 1 [72, 69, 76, 76, 79]).size = v * 4 + 17 ∧
      ∀ r c, r < (QR.buildSymbol 1 [72, 69, 76, 76, 79]).size →
        c < (QR.buildSymbol 1 [72, 69, 76, 76, 79]).size →
        ((QR.buildSymbol 1 [72, 69, 76, 76, 79]).cell r c).isSome = true :=
  C10_all_cells_assigned [72, 69, 76, 76, 79] (QR.buildSymbol 1 [72, 69, 76, 76, 79]) rfl
